import Mathlib

/-!
# Divisor enumeration (`Task3.cpp`)

A shallow embedding of the two divisor-enumeration routines of `Task3.cpp`,
`naiveDivisors` and `optimizedDivisors`, together with the properties their
specification states about them.

Modelling conventions.

* `long long` values are mathematical integers (`Int`).  Signed arithmetic
  whose exact result leaves the range of `long long` has no defined result in
  C++; the embedding then stops with `Outcome.undef`.  The same outcome is used
  for a remainder by zero, for an index outside a vector and for the conversion
  of a NaN to an integer.
* `%` and `/` on `long long` truncate towards zero: `Int.tmod`, `Int.tdiv`.
* A `for` loop is a function recursive in a fuel argument that bounds the number
  of evaluations of the loop condition; running out of fuel is
  `Outcome.timeout`.  A statement that the program returns a value always
  exhibits enough fuel.
* `std::vector<long long>` is `List Int`; `push_back` appends at the end.
* `sqrt(n)` on a `long long` argument converts `n` to an IEEE-754 binary64
  number (round to nearest, ties to even), takes the correctly rounded square
  root and the initialisation of `sqrtN` truncates the result towards zero.
  All three steps are modelled exactly, in integer arithmetic.
-/

namespace Task3

/-- Result of running a piece of the program. -/
inductive Outcome (α : Type) where
  /-- normal completion with a value -/
  | done (a : α) : Outcome α
  /-- an operation without defined behaviour was reached -/
  | undef : Outcome α
  /-- the iteration budget was used up before the loop was left -/
  | timeout : Outcome α
  deriving DecidableEq, Repr

/-- Largest value of `long long`. -/
def LLONG_MAX : Int := 9223372036854775807

/-- Largest value of `int`. -/
def INT_MAX : Int := 2147483647

/-- Smallest value of `int`. -/
def INT_MIN : Int := -2147483648

/-- Smallest value of `long long`. -/
def LLONG_MIN : Int := -9223372036854775808

/-- The operations `n / i` and `n % i` on `long long` have no defined result when
the divisor is zero or when the quotient is not representable. -/
def divUndefined (n i : Int) : Bool :=
  decide (i = 0) || (decide (n = LLONG_MIN) && decide (i = -1))

/-! ## `naiveDivisors` (lines 11-19) -/

/-- The loop `for (long long i = 1; i <= n; i++) { if (n % i == 0) divisors.push_back(i); }`
started in the state `(i, divisors)`. -/
def naiveLoop : Nat → Int → Int → List Int → Outcome (List Int)
  | 0, _, _, _ => Outcome.timeout
  | fuel + 1, n, i, divisors =>
    if i ≤ n then
      if divUndefined n i then Outcome.undef
      else
        let divisors1 := if Int.tmod n i = 0 then divisors ++ [i] else divisors
        if i + 1 ≤ LLONG_MAX then naiveLoop fuel n (i + 1) divisors1
        else Outcome.undef
    else Outcome.done divisors

/-- Embedding of `naiveDivisors(n)`. -/
def naiveDivisors (fuel : Nat) (n : Int) : Outcome (List Int) :=
  naiveLoop fuel n 1 []

/-! ## The bound `long long sqrtN = sqrt(n);` (line 26) -/

/-- Value of `(double) n` for a natural number `n < 2 ^ 64`: `n` rounded to 53
significant bits, to nearest, ties to even.  The value is again an integer. -/
def toDouble (n : Nat) : Nat :=
  let e := Nat.log2 n
  if e ≤ 52 then n
  else
    let u := 2 ^ (e - 52)
    let q := n / u
    let r := n % u
    if 2 * r < u then q * u
    else if u < 2 * r then (q + 1) * u
    else if q % 2 = 0 then q * u
    else (q + 1) * u

/-- Correctly rounded binary64 square root of a double with integer value
`x`, `1 ≤ x < 2 ^ 64`.  The result is the pair `(M, T)` standing for the double
`M / T`, where `T = 2 ^ (52 - k)` is the reciprocal of the spacing of the doubles
in the binade `[2 ^ k, 2 ^ (k + 1)]` that contains the exact root, and `M` is
the integer nearest to `sqrt x * T` (a tie cannot occur). -/
def sqrtDouble (x : Nat) : Nat × Nat :=
  let k := Nat.log2 x / 2
  let T := 2 ^ (52 - k)
  let X := x * T * T
  let m := Nat.sqrt X
  (if X ≤ m * m + m then m else m + 1, T)

/-- The value stored by `long long sqrtN = sqrt(n);`: `none` when the double is a
NaN (negative `n`), whose conversion to `long long` is not defined. -/
def sqrtBound (n : Int) : Option Int :=
  if n < 0 then none
  else if n = 0 then some 0
  else
    let r := sqrtDouble (toDouble n.toNat)
    some (Int.ofNat (r.1 / r.2))

/-! ## `optimizedDivisors` (lines 22-43) -/

/-- The scan loop of lines 28-35 with loop bound `sqrtN`, started in the state
`(i, smallDivisors, largeDivisors)`. -/
def scanLoop : Nat → Int → Int → Int → List Int → List Int → Outcome (List Int × List Int)
  | 0, _, _, _, _, _ => Outcome.timeout
  | fuel + 1, n, sqrtN, i, smallDivisors, largeDivisors =>
    if i ≤ sqrtN then
      if divUndefined n i then Outcome.undef
      else
        let st :=
          if Int.tmod n i = 0 then
            (smallDivisors ++ [i],
              if i ≠ Int.tdiv n i then largeDivisors ++ [Int.tdiv n i] else largeDivisors)
          else (smallDivisors, largeDivisors)
        if i + 1 ≤ LLONG_MAX then scanLoop fuel n sqrtN (i + 1) st.1 st.2
        else Outcome.undef
    else Outcome.done (smallDivisors, largeDivisors)

/-- Initial value of `int i = largeDivisors.size() - 1`: the subtraction is done
in the 64-bit unsigned type `size_t`, the result is converted to `int` modulo
`2 ^ 32`. -/
def startIndex (size : Nat) : Int :=
  let u : Nat := (size + 2 ^ 64 - 1) % 2 ^ 64
  let w : Nat := u % 2 ^ 32
  if w < 2 ^ 31 then Int.ofNat w else Int.ofNat w - 2 ^ 32

/-- The loop `for (int i = ...; i >= 0; i--) smallDivisors.push_back(largeDivisors[i]);`
of lines 38-40, started in the state `(i, smallDivisors)`. -/
def reverseLoop : Nat → List Int → Int → List Int → Outcome (List Int)
  | 0, _, _, _ => Outcome.timeout
  | fuel + 1, largeDivisors, i, smallDivisors =>
    if 0 ≤ i then
      match largeDivisors[i.toNat]? with
      | none => Outcome.undef
      | some v =>
        if INT_MIN ≤ i - 1 then reverseLoop fuel largeDivisors (i - 1) (smallDivisors ++ [v])
        else Outcome.undef
    else Outcome.done smallDivisors

/-- Lines 28-42 of `optimizedDivisors` as a function of `n` and of the loop
bound. -/
def optimizedBody (fuel : Nat) (n sqrtN : Int) : Outcome (List Int) :=
  match scanLoop fuel n sqrtN 1 [] [] with
  | Outcome.done st => reverseLoop fuel st.2 (startIndex st.2.length) st.1
  | Outcome.undef => Outcome.undef
  | Outcome.timeout => Outcome.timeout

/-- Embedding of `optimizedDivisors(n)`. -/
def optimizedDivisors (fuel : Nat) (n : Int) : Outcome (List Int) :=
  match sqrtBound n with
  | none => Outcome.undef
  | some sqrtN => optimizedBody fuel n sqrtN

/-! ## The specification's divisor sequence -/

/-- The sequence the specification asks for: the `d` with `1 ≤ d ≤ n` and
`n mod d = 0`, in ascending order. -/
def specDivisors (n : Int) : List Int :=
  ((List.range' 1 n.toNat).map Int.ofNat).filter (fun d => decide (n % d = 0))

/-! ## Closed forms of the loops

The definitions below describe the states the loops reach; they are compared
with the loops in the next sections. -/

/-- The candidates `a, a + 1, ..., a + k - 1` as `long long` values. -/
def candidates (a k : Nat) : List Int := (List.range' a k).map Int.ofNat

/-- Contents of `smallDivisors` after the scan over the candidates
`a, ..., a + k - 1`. -/
def smallOf (n : Int) (a k : Nat) : List Int :=
  (candidates a k).filter (fun d => decide (n % d = 0))

/-- Contents of `largeDivisors` after the scan over the candidates
`a, ..., a + k - 1`. -/
def largeOf (n : Int) (a k : Nat) : List Int :=
  ((candidates a k).filter (fun d => decide (n % d = 0) && decide (d ≠ n / d))).map
    (fun d => n / d)

/-- The bound of line 26 for a positive `n`, as a natural number. -/
def sqrtNat (N : Nat) : Nat :=
  (sqrtDouble (toDouble N)).1 / (sqrtDouble (toDouble N)).2

/-! ## The loops with a log

The same loops, returning in addition the list of the counter values at which
the loop body was entered and, on normal completion, the final value of the
counter.  The log is kept when the run stops at an undefined operation or runs
out of budget. -/

/-- Apply a function to the value of a completed run. -/
def Outcome.map {α β : Type} (f : α → β) : Outcome α → Outcome β
  | Outcome.done a => Outcome.done (f a)
  | Outcome.undef => Outcome.undef
  | Outcome.timeout => Outcome.timeout

/-- The loop of `naiveDivisors` (lines 13-17) with the log of the values of `i` for
which `n % i == 0` was evaluated; a completed run also yields the final `i`. -/
def naiveLoopLog : Nat → Int → Int → List Int → List Int → List Int × Outcome (List Int × Int)
  | 0, _, _, _, log => (log, Outcome.timeout)
  | fuel + 1, n, i, divisors, log =>
    if i ≤ n then
      if divUndefined n i then (log, Outcome.undef)
      else
        let divisors1 := if Int.tmod n i = 0 then divisors ++ [i] else divisors
        if i + 1 ≤ LLONG_MAX then naiveLoopLog fuel n (i + 1) divisors1 (log ++ [i])
        else (log ++ [i], Outcome.undef)
    else (log, Outcome.done (divisors, i))

/-- Run of `naiveDivisors(n)` with its log. -/
def naiveDivisorsLog (fuel : Nat) (n : Int) : List Int × Outcome (List Int × Int) :=
  naiveLoopLog fuel n 1 [] []

/-- The scan loop of `optimizedDivisors` (lines 28-35) with the log of the values
of `i` for which `n % i == 0` was evaluated; a completed run also yields the
final `i`. -/
def scanLoopLog : Nat → Int → Int → Int → List Int → List Int → List Int →
    List Int × Outcome ((List Int × List Int) × Int)
  | 0, _, _, _, _, _, log => (log, Outcome.timeout)
  | fuel + 1, n, sqrtN, i, smallDivisors, largeDivisors, log =>
    if i ≤ sqrtN then
      if divUndefined n i then (log, Outcome.undef)
      else
        let st :=
          if Int.tmod n i = 0 then
            (smallDivisors ++ [i],
              if i ≠ Int.tdiv n i then largeDivisors ++ [Int.tdiv n i] else largeDivisors)
          else (smallDivisors, largeDivisors)
        if i + 1 ≤ LLONG_MAX then scanLoopLog fuel n sqrtN (i + 1) st.1 st.2 (log ++ [i])
        else (log ++ [i], Outcome.undef)
    else (log, Outcome.done ((smallDivisors, largeDivisors), i))

/-- Value of `largeDivisors.size() - 1` in the 64-bit unsigned type `size_t`. -/
def sizeMinusOne (size : Nat) : Nat := (size + 2 ^ 64 - 1) % 2 ^ 64

/-- Conversion of a `size_t` value to `int`, modulo `2 ^ 32`. -/
def sizeToInt (u : Nat) : Int :=
  let w : Nat := u % 2 ^ 32
  if w < 2 ^ 31 then Int.ofNat w else Int.ofNat w - 2 ^ 32

/-- The reverse traversal (lines 38-40) with the log of the indices `i` used in
`largeDivisors[i]`; a completed run also yields the final `i`. -/
def reverseLoopLog : Nat → List Int → Int → List Int → List Int →
    List Int × Outcome (List Int × Int)
  | 0, _, _, _, log => (log, Outcome.timeout)
  | fuel + 1, largeDivisors, i, smallDivisors, log =>
    if 0 ≤ i then
      match largeDivisors[i.toNat]? with
      | none => (log ++ [i], Outcome.undef)
      | some v =>
        if INT_MIN ≤ i - 1 then
          reverseLoopLog fuel largeDivisors (i - 1) (smallDivisors ++ [v]) (log ++ [i])
        else (log ++ [i], Outcome.undef)
    else (log, Outcome.done (smallDivisors, i))

/-- The indices `j - 1, j - 2, ..., 0`. -/
def descending (j : Nat) : List Int := ((List.range j).reverse).map Int.ofNat

/-! ## Auxiliary facts about lists of candidates -/

theorem divUndefined_pos {n i : Int} (hi : 1 ≤ i) : divUndefined n i = false := by
  have h1 : i ≠ 0 := by omega
  have h2 : i ≠ -1 := by omega
  simp [divUndefined, h1, h2]


theorem candidates_zero (a : Nat) : candidates a 0 = [] := rfl

theorem candidates_succ (a k : Nat) :
    candidates a (k + 1) = (a : Int) :: candidates (a + 1) k := by
  simp [candidates, List.range'_succ]

theorem mem_candidates {a k : Nat} {d : Int} :
    d ∈ candidates a k ↔ (a : Int) ≤ d ∧ d < a + k := by
  simp only [candidates, List.mem_map, List.mem_range'_1]
  constructor
  · rintro ⟨x, ⟨h1, h2⟩, rfl⟩
    simp only [Int.ofNat_eq_coe]
    omega
  · rintro ⟨h1, h2⟩
    refine ⟨d.toNat, ⟨by omega, by omega⟩, ?_⟩
    simp only [Int.ofNat_eq_coe]
    omega

theorem candidates_pairwise (a k : Nat) : (candidates a k).Pairwise (· < ·) := by
  induction k generalizing a with
  | zero => simp [candidates]
  | succ k ih =>
    rw [candidates_succ, List.pairwise_cons]
    refine ⟨fun d hd => ?_, ih (a + 1)⟩
    have := (mem_candidates.1 hd).1
    push_cast at this
    omega

theorem tmod_eq_zero_iff {n i : Int} (hn : 0 ≤ n) (hi : 0 < i) :
    Int.tmod n i = 0 ↔ n % i = 0 := by
  rw [Int.tmod_eq_emod hn (le_of_lt hi)]

theorem tdiv_eq_ediv {n i : Int} (hn : 0 ≤ n) (hi : 0 < i) : Int.tdiv n i = n / i :=
  Int.tdiv_eq_ediv hn (le_of_lt hi)

/-! ## The naive loop -/

theorem naiveLoop_eq (n : Int) (hn : n + 1 ≤ LLONG_MAX) :
    ∀ (k : Nat) (fuel a : Nat) (divisors : List Int), 1 ≤ a → (a : Int) + k = n + 1 →
      k < fuel →
      naiveLoop fuel n a divisors =
        Outcome.done (divisors ++ (candidates a k).filter (fun d => decide (n % d = 0))) := by
  intro k
  induction k with
  | zero =>
    intro fuel a divisors ha hk hf
    obtain ⟨f, rfl⟩ : ∃ f, fuel = f + 1 := ⟨fuel - 1, by omega⟩
    have : ¬ ((a : Int) ≤ n) := by omega
    simp [naiveLoop, this, candidates]
  | succ k ih =>
    intro fuel a divisors ha hk hf
    obtain ⟨f, rfl⟩ : ∃ f, fuel = f + 1 := ⟨fuel - 1, by omega⟩
    have h1 : (a : Int) ≤ n := by omega
    have h2 : ¬ (divUndefined n a = true) := by simp [divUndefined_pos (show (1 : Int) ≤ a by omega)]
    have h3 : (a : Int) + 1 ≤ LLONG_MAX := by omega
    have h4 : Int.tmod n a = 0 ↔ n % (a : Int) = 0 :=
      tmod_eq_zero_iff (by omega) (by omega)
    have ih1 := ih f (a + 1) (if Int.tmod n a = 0 then divisors ++ [(a : Int)] else divisors)
      (by omega) (by push_cast; omega) (by omega)
    push_cast at ih1
    rw [naiveLoop, if_pos h1, if_neg h2]
    simp only [if_pos h3]
    rw [ih1, candidates_succ, List.filter_cons]
    by_cases h5 : n % (a : Int) = 0
    · simp [h5, h4.2 h5]
    · simp [h5, mt h4.1 h5]

theorem naiveDivisors_eq {n : Int} (h1 : 1 ≤ n) (h2 : n < LLONG_MAX) {fuel : Nat}
    (hf : n.toNat < fuel) : naiveDivisors fuel n = Outcome.done (specDivisors n) := by
  have := naiveLoop_eq n (by omega) n.toNat fuel 1 [] (le_refl 1) (by omega) hf
  simpa [naiveDivisors, specDivisors, candidates] using this

/-- At `n = LLONG_MAX` the naive loop never reaches its exit: the condition
`i <= n` holds for every `long long`, so a run ends in the overflow of `i++` or
with the budget used up. -/
theorem naiveLoop_max (fuel : Nat) :
    ∀ (i : Int) (divisors : List Int), i ≤ LLONG_MAX →
      naiveLoop fuel LLONG_MAX i divisors = Outcome.undef ∨
        naiveLoop fuel LLONG_MAX i divisors = Outcome.timeout := by
  induction fuel with
  | zero => intro i divisors _; simp [naiveLoop]
  | succ f ih =>
    intro i divisors hi
    rw [naiveLoop, if_pos hi]
    by_cases h0 : divUndefined LLONG_MAX i = true
    · simp [h0]
    · rw [if_neg h0]
      by_cases h3 : i + 1 ≤ LLONG_MAX
      · simp only [if_pos h3]
        exact ih _ _ h3
      · simp [h3]

/-! ## The scan loop and the reverse traversal -/

theorem scanLoop_eq (n b : Int) (hn : 0 ≤ n) (hb : b + 1 ≤ LLONG_MAX) :
    ∀ (k : Nat) (fuel a : Nat) (sm lg : List Int), 1 ≤ a → (a : Int) + k = b + 1 →
      k < fuel →
      scanLoop fuel n b a sm lg = Outcome.done (sm ++ smallOf n a k, lg ++ largeOf n a k) := by
  intro k
  induction k with
  | zero =>
    intro fuel a sm lg ha hk hf
    obtain ⟨f, rfl⟩ : ∃ f, fuel = f + 1 := ⟨fuel - 1, by omega⟩
    have : ¬ ((a : Int) ≤ b) := by omega
    simp [scanLoop, this, smallOf, largeOf, candidates]
  | succ k ih =>
    intro fuel a sm lg ha hk hf
    obtain ⟨f, rfl⟩ : ∃ f, fuel = f + 1 := ⟨fuel - 1, by omega⟩
    have h1 : (a : Int) ≤ b := by omega
    have h2 : ¬ (divUndefined n a = true) := by simp [divUndefined_pos (show (1 : Int) ≤ a by omega)]
    have h3 : (a : Int) + 1 ≤ LLONG_MAX := by omega
    have h4 : Int.tmod n a = 0 ↔ n % (a : Int) = 0 := tmod_eq_zero_iff hn (by omega)
    have h6 : Int.tdiv n a = n / (a : Int) := tdiv_eq_ediv hn (by omega)
    rw [scanLoop, if_pos h1, if_neg h2]
    simp only [if_pos h3]
    have ih1 := fun sm1 lg1 => ih f (a + 1) sm1 lg1 (by omega) (by push_cast; omega) (by omega)
    push_cast at ih1
    rw [ih1]
    simp only [smallOf, largeOf, candidates_succ, List.filter_cons, h6]
    by_cases h5 : n % (a : Int) = 0
    · by_cases h7 : (a : Int) = n / (a : Int)
      · simp [h5, h4.2 h5, ← h7]
      · simp [h5, h4.2 h5, h7]
    · simp [h5, mt h4.1 h5]

theorem startIndex_eq {size : Nat} (h : size ≤ 2 ^ 31) : startIndex size = (size : Int) - 1 := by
  unfold startIndex
  rcases Nat.eq_zero_or_pos size with h0 | h0
  · subst h0; decide
  · have e1 : (size + 2 ^ 64 - 1) % 2 ^ 64 = size - 1 := by
      have : size + 2 ^ 64 - 1 = (size - 1) + 2 ^ 64 := by omega
      rw [this, Nat.add_mod_right, Nat.mod_eq_of_lt (by omega)]
    have e2 : (size - 1) % 2 ^ 32 = size - 1 := Nat.mod_eq_of_lt (by omega)
    simp only [e1, e2]
    rw [if_pos (by omega)]
    simp only [Int.ofNat_eq_coe]
    omega

theorem reverseLoop_eq (lg : List Int) :
    ∀ (j : Nat) (fuel : Nat) (sm : List Int), j ≤ lg.length → j < fuel →
      reverseLoop fuel lg ((j : Int) - 1) sm = Outcome.done (sm ++ (lg.take j).reverse) := by
  intro j
  induction j with
  | zero =>
    intro fuel sm _ hf
    obtain ⟨f, rfl⟩ : ∃ f, fuel = f + 1 := ⟨fuel - 1, by omega⟩
    simp [reverseLoop]
  | succ j ih =>
    intro fuel sm hj hf
    obtain ⟨f, rfl⟩ : ∃ f, fuel = f + 1 := ⟨fuel - 1, by omega⟩
    have h1 : (0 : Int) ≤ ((j + 1 : Nat) : Int) - 1 := by push_cast; omega
    have h2 : (((j + 1 : Nat) : Int) - 1).toNat = j := by push_cast; omega
    have h3 : lg[j]? = some (lg.get ⟨j, by omega⟩) := by
      simp [List.getElem?_eq_getElem (show j < lg.length by omega)]
    have h4 : INT_MIN ≤ ((j + 1 : Nat) : Int) - 1 - 1 := by
      unfold INT_MIN; push_cast; omega
    have h5 : ((j + 1 : Nat) : Int) - 1 - 1 = (j : Int) - 1 := by push_cast; omega
    rw [reverseLoop, if_pos h1, h2, h3]
    simp only [if_pos h4]
    rw [h5, ih f _ (by omega) (by omega)]
    have h6 : lg.take (j + 1) = lg.take j ++ [lg.get ⟨j, by omega⟩] := by
      rw [List.take_succ, List.getElem?_eq_getElem (show j < lg.length by omega)]
      rfl
    rw [h6, List.reverse_append]
    simp

theorem largeOf_length_le (n : Int) (a k : Nat) :
    (largeOf n a k).length ≤ (smallOf n a k).length := by
  unfold largeOf smallOf
  rw [List.length_map]
  apply List.Sublist.length_le
  apply List.monotone_filter_right
  intro d h
  simp only [Bool.and_eq_true] at h
  exact h.1

theorem smallOf_length_le (n : Int) (a k : Nat) : (smallOf n a k).length ≤ k := by
  unfold smallOf
  refine le_trans (List.length_filter_le _ _) ?_
  simp [candidates]

/-- Lines 28-42 with a bound `b`: when the number of large divisors fits in an
`int`, the result is the small divisors followed by the large ones reversed. -/
theorem optimizedBody_eq {n b : Int} (hn : 0 ≤ n) (hb0 : 0 ≤ b) (hb : b + 1 ≤ LLONG_MAX)
    (hlen : (largeOf n 1 b.toNat).length ≤ 2 ^ 31) {fuel : Nat} (hf : b.toNat < fuel) :
    optimizedBody fuel n b =
      Outcome.done (smallOf n 1 b.toNat ++ (largeOf n 1 b.toNat).reverse) := by
  have h1 := scanLoop_eq n b hn hb b.toNat fuel 1 [] [] (le_refl 1) (by omega) hf
  simp only [Nat.cast_one, List.nil_append] at h1
  unfold optimizedBody
  rw [h1]
  simp only
  rw [startIndex_eq hlen]
  have h2 := largeOf_length_le n 1 b.toNat
  have h3 := smallOf_length_le n 1 b.toNat
  rw [reverseLoop_eq _ _ fuel _ (le_refl _) (by omega), List.take_length]

/-! ## The sequences as sets of divisors -/

theorem mem_smallOf {n : Int} {a k : Nat} {d : Int} :
    d ∈ smallOf n a k ↔ ((a : Int) ≤ d ∧ d < a + k) ∧ n % d = 0 := by
  simp [smallOf, mem_candidates]

theorem mem_largeOf {n : Int} {a k : Nat} {d : Int} :
    d ∈ largeOf n a k ↔
      ∃ j : Int, (((a : Int) ≤ j ∧ j < a + k) ∧ n % j = 0 ∧ j ≠ n / j) ∧ n / j = d := by
  simp [largeOf, mem_candidates]

theorem specDivisors_eq_smallOf (n : Int) : specDivisors n = smallOf n 1 n.toNat := rfl

theorem mem_specDivisors {n d : Int} :
    d ∈ specDivisors n ↔ 1 ≤ d ∧ d ≤ n ∧ n % d = 0 := by
  rw [specDivisors_eq_smallOf, mem_smallOf]
  constructor
  · rintro ⟨⟨h1, h2⟩, h3⟩
    refine ⟨by omega, by omega, h3⟩
  · rintro ⟨h1, h2, h3⟩
    refine ⟨⟨by omega, by omega⟩, h3⟩

theorem smallOf_pairwise (n : Int) (a k : Nat) : (smallOf n a k).Pairwise (· < ·) :=
  (candidates_pairwise a k).filter _

theorem specDivisors_pairwise (n : Int) : (specDivisors n).Pairwise (· < ·) :=
  smallOf_pairwise n 1 n.toNat

theorem mul_ediv_of_emod {n j : Int} (h : n % j = 0) : j * (n / j) = n :=
  Int.mul_ediv_cancel' (Int.dvd_of_emod_eq_zero h)

theorem ediv_lt_ediv_of_lt {n x y : Int} (hn : 1 ≤ n) (hx : 1 ≤ x) (hxy : x < y)
    (h1 : n % x = 0) (h2 : n % y = 0) : n / y < n / x := by
  have e1 := mul_ediv_of_emod h1
  have e2 := mul_ediv_of_emod h2
  by_contra hc
  have hc1 : n / x ≤ n / y := not_lt.1 hc
  have hq : 0 < n / x := by
    by_contra h0
    have : x * (n / x) ≤ 0 := by nlinarith
    omega
  nlinarith

theorem largeOf_pairwise {n : Int} (hn : 1 ≤ n) {a : Nat} (ha : 1 ≤ a) (k : Nat) :
    (largeOf n a k).Pairwise (fun x y => y < x) := by
  unfold largeOf
  rw [List.pairwise_map]
  have h := (candidates_pairwise a k).filter
    (fun d => decide (n % d = 0) && decide (d ≠ n / d))
  refine h.imp_of_mem ?_
  intro x y hx hy hxy
  simp only [List.mem_filter, mem_candidates, Bool.and_eq_true, decide_eq_true_eq] at hx hy
  exact ediv_lt_ediv_of_lt hn (by omega) hxy hx.2.1 hy.2.1

/-- With a bound `b` that is at least the integer square root of `n` and such
that no divisor of `n` lies between that root and `b`, the small divisors
followed by the reversed large divisors are the specification's sequence. -/
theorem small_append_large_eq {n : Int} (hn : 1 ≤ n) {b : Nat}
    (H1 : ∀ d : Int, 1 ≤ d → d * d ≤ n → d ≤ b)
    (H2 : ∀ d : Int, 1 ≤ d → d ≤ b → n % d = 0 → d * d ≤ n) :
    smallOf n 1 b ++ (largeOf n 1 b).reverse = specDivisors n := by
  have key : ∀ j : Int, 1 ≤ j → j ≤ b → n % j = 0 → j ≠ n / j →
      j * (n / j) = n ∧ j < n / j := by
    intro j hj1 hjb hj hne
    have e := mul_ediv_of_emod hj
    have hsq := H2 j hj1 hjb hj
    refine ⟨e, ?_⟩
    by_contra hc
    have : n / j < j := by omega
    nlinarith
  have sortedL : (smallOf n 1 b ++ (largeOf n 1 b).reverse).Pairwise (· < ·) := by
    rw [List.pairwise_append, List.pairwise_reverse]
    refine ⟨smallOf_pairwise n 1 b, largeOf_pairwise hn (le_refl 1) b, ?_⟩
    intro x hx y hy
    rw [List.mem_reverse, mem_largeOf] at hy
    rw [mem_smallOf] at hx
    obtain ⟨j, ⟨⟨hj1, hj2⟩, hj3, hj4⟩, rfl⟩ := hy
    obtain ⟨⟨hx1, hx2⟩, hx3⟩ := hx
    push_cast at hj1 hj2 hx1 hx2
    obtain ⟨e, hlt⟩ := key j hj1 (by omega) hj3 hj4
    have hxx := H2 x hx1 (by omega) hx3
    by_contra hc
    have hc1 : n / j ≤ x := not_lt.1 hc
    nlinarith
  have memL : ∀ d, d ∈ smallOf n 1 b ++ (largeOf n 1 b).reverse ↔ d ∈ specDivisors n := by
    intro d
    rw [List.mem_append, List.mem_reverse, mem_smallOf, mem_largeOf, mem_specDivisors]
    constructor
    · rintro (⟨⟨h1, h2⟩, h3⟩ | ⟨j, ⟨⟨hj1, hj2⟩, hj3, hj4⟩, rfl⟩)
      · push_cast at h1 h2
        refine ⟨h1, ?_, h3⟩
        exact Int.le_of_dvd (by omega) (Int.dvd_of_emod_eq_zero h3)
      · push_cast at hj1 hj2
        obtain ⟨e, hlt⟩ := key j hj1 (by omega) hj3 hj4
        have hd : (n / j) ∣ n := Dvd.intro_left j e
        refine ⟨by omega, Int.le_of_dvd (by omega) hd, Int.emod_eq_zero_of_dvd hd⟩
    · rintro ⟨h1, h2, h3⟩
      by_cases hsq : d * d ≤ n
      · left
        have := H1 d h1 hsq
        refine ⟨⟨by push_cast; omega, by push_cast; omega⟩, h3⟩
      · right
        have e := mul_ediv_of_emod h3
        have hq : 1 ≤ n / d := by
          by_contra h0
          have : d * (n / d) ≤ 0 := by nlinarith
          omega
        have hlt : n / d < d := by
          by_contra hc
          have : d ≤ n / d := not_lt.1 hc
          nlinarith
        have hqq : (n / d) * (n / d) ≤ n := by nlinarith
        have hqb := H1 (n / d) hq hqq
        have hqd : (n / d) ∣ n := Dvd.intro_left d e
        have e2 : n / (n / d) = d := by
          apply Int.ediv_eq_of_eq_mul_right (by omega)
          rw [mul_comm]; exact e.symm
        refine ⟨n / d, ⟨⟨by push_cast; omega, by push_cast; omega⟩,
          Int.emod_eq_zero_of_dvd hqd, ?_⟩, e2⟩
        rw [e2]; omega
  have nd1 : (smallOf n 1 b ++ (largeOf n 1 b).reverse).Nodup :=
    sortedL.imp (fun h => ne_of_lt h)
  have nd2 : (specDivisors n).Nodup := (specDivisors_pairwise n).imp (fun h => ne_of_lt h)
  exact List.eq_of_perm_of_sorted ((List.perm_ext_iff_of_nodup nd1 nd2).2 memL) sortedL
    (specDivisors_pairwise n)

/-! ## A bound on the number of small divisors -/

/-- Three consecutive numbers from `2 ^ 22` on cannot all divide a positive
number below `2 ^ 63`. -/
theorem not_three_consecutive_dvd {N a : Nat} (hN : 0 < N) (h63 : N < 2 ^ 63)
    (ha : 2 ^ 22 ≤ a) : ¬ (a ∣ N ∧ (a + 1) ∣ N ∧ (a + 2) ∣ N) := by
  rintro ⟨h0, h1, h2⟩
  have c1 : Nat.Coprime a (a + 1) := by simp
  have c2 : Nat.Coprime (a + 1) (a + 2) := by
    have : a + 2 = (a + 1) + 1 := rfl
    rw [this]; simp
  obtain ⟨u, hu⟩ := c1.mul_dvd_of_dvd_of_dvd h0 h1
  obtain ⟨v, hv⟩ := c2.mul_dvd_of_dvd_of_dvd h1 h2
  have hu0 : 0 < u := by
    rcases Nat.eq_zero_or_pos u with h | h
    · subst h; omega
    · exact h
  have e : a * u = (a + 2) * v := by
    have : (a + 1) * (a * u) = (a + 1) * ((a + 2) * v) := by
      calc (a + 1) * (a * u) = a * (a + 1) * u := by ring
        _ = N := hu.symm
        _ = (a + 1) * (a + 2) * v := hv
        _ = (a + 1) * ((a + 2) * v) := by ring
    exact Nat.eq_of_mul_eq_mul_left (by omega) this
  have d2 : (a + 2) ∣ 2 * u := by
    have h3 : (a + 2) ∣ (a + 2) * u := Dvd.intro _ rfl
    have h4 : (a + 2) ∣ a * u := ⟨v, e⟩
    have h5 : (a + 2) * u - a * u = 2 * u := by
      have : (a + 2) * u = a * u + 2 * u := by ring
      omega
    rw [← h5]
    exact Nat.dvd_sub' h3 h4
  have h6 : a + 2 ≤ 2 * u := Nat.le_of_dvd (by omega) d2
  have h7 : a * (a + 1) * (a + 2) ≤ 2 * N := by
    calc a * (a + 1) * (a + 2) ≤ a * (a + 1) * (2 * u) := Nat.mul_le_mul_left _ h6
      _ = 2 * (a * (a + 1) * u) := by ring
      _ = 2 * N := by rw [hu]
  have h8 : 2 ^ 22 * 2 ^ 22 * 2 ^ 22 ≤ a * (a + 1) * (a + 2) :=
    Nat.mul_le_mul (Nat.mul_le_mul ha (by omega)) (by omega)
  norm_num at h8 h63
  omega

theorem filter_three_length {α : Type} (p : α → Bool) (x y z : α)
    (h : ¬ (p x = true ∧ p y = true ∧ p z = true)) : ([x, y, z].filter p).length ≤ 2 := by
  simp only [List.filter_cons, List.filter_nil]
  cases hx : p x <;> cases hy : p y <;> cases hz : p z <;> simp_all

theorem smallOf_append (n : Int) (a k1 k2 : Nat) :
    smallOf n a (k1 + k2) = smallOf n a k1 ++ smallOf n (a + k1) k2 := by
  unfold smallOf candidates
  rw [← List.filter_append, ← List.map_append, List.range'_append_1, Nat.add_comm k2 k1]

theorem smallOf_length_mono (n : Int) (a : Nat) {k1 k2 : Nat} (h : k1 ≤ k2) :
    (smallOf n a k1).length ≤ (smallOf n a k2).length := by
  obtain ⟨c, rfl⟩ := Nat.exists_eq_add_of_le h
  rw [smallOf_append, List.length_append]
  omega

theorem smallOf_three_length {N : Nat} (hN : 0 < N) (h63 : N < 2 ^ 63) :
    ∀ (m a : Nat), 2 ^ 22 ≤ a → (smallOf (N : Int) a (3 * m)).length ≤ 2 * m := by
  intro m
  induction m with
  | zero => intro a _; simp [smallOf, candidates]
  | succ m ih =>
    intro a ha
    have e : 3 * (m + 1) = 3 + 3 * m := by ring
    rw [e, smallOf_append]
    have h1 := ih (a + 3) (by omega)
    have h2 : (smallOf (N : Int) a 3).length ≤ 2 := by
      have h3 := not_three_consecutive_dvd hN h63 ha
      have d0 : ∀ x : Nat, ((N : Int) % (x : Int) = 0) ↔ x ∣ N := by
        intro x
        rw [← Int.natCast_dvd_natCast]
        exact ⟨Int.dvd_of_emod_eq_zero, Int.emod_eq_zero_of_dvd⟩
      have e3 : smallOf (N : Int) a 3 =
          ([(a : Int), ((a + 1 : Nat) : Int), ((a + 2 : Nat) : Int)]).filter
            (fun d => decide ((N : Int) % d = 0)) := by
        have e4 : a + 1 + 1 = a + 2 := rfl
        simp only [smallOf, candidates_succ, candidates_zero, e4]
      rw [e3]
      apply filter_three_length
      simp only [decide_eq_true_eq, d0]
      exact h3
    rw [List.length_append]
    omega

/-- A positive `long long` has at most `2 ^ 31` divisors among the first
`3037000500` numbers. -/
theorem smallOf_length_bound {N : Nat} (hN : 0 < N) (h63 : N < 2 ^ 63) {b : Nat}
    (hb : b ≤ 3037000500) : (smallOf (N : Int) 1 b).length ≤ 2 ^ 31 := by
  have h1 : b ≤ 4194303 + 3 * 1010935400 := by omega
  have h2 := smallOf_length_mono (N : Int) 1 h1
  rw [smallOf_append] at h2
  rw [List.length_append] at h2
  have h3 := smallOf_length_le (N : Int) 1 4194303
  have h4 := smallOf_three_length hN h63 1010935400 (1 + 4194303) (by norm_num)
  have h5 : 4194303 + 2 * 1010935400 ≤ 2 ^ 31 := by norm_num
  omega

/-! ## The floating-point bound -/

theorem sqrtBound_pos {n : Int} (hn : 1 ≤ n) : sqrtBound n = some ((sqrtNat n.toNat : Nat) : Int) := by
  unfold sqrtBound sqrtNat
  rw [if_neg (by omega), if_neg (by omega)]
  rfl

theorem log2_eq_of_bounds {N e : Nat} (h1 : 2 ^ e ≤ N) (h2 : N < 2 ^ (e + 1)) :
    Nat.log2 N = e := by
  have hN : N ≠ 0 := by
    have := Nat.two_pow_pos e
    omega
  have a : e ≤ Nat.log2 N := (Nat.le_log2 hN).2 h1
  have b : Nat.log2 N < e + 1 := (Nat.log2_lt hN).2 h2
  omega

theorem log2_bounds {N : Nat} (hN : 1 ≤ N) : 2 ^ Nat.log2 N ≤ N ∧ N < 2 ^ (Nat.log2 N + 1) :=
  ⟨Nat.log2_self_le (by omega), Nat.lt_log2_self⟩

theorem toDouble_small {N e : Nat} (he : e ≤ 52) (h1 : 2 ^ e ≤ N) (h2 : N < 2 ^ (e + 1)) :
    toDouble N = N := by
  unfold toDouble
  simp only [log2_eq_of_bounds h1 h2, if_pos he]

theorem toDouble_large {N e : Nat} (he1 : 53 ≤ e) (he2 : e ≤ 62) (h1 : 2 ^ e ≤ N)
    (h2 : N < 2 ^ (e + 1)) :
    2 ^ e ≤ toDouble N ∧ toDouble N ≤ 2 ^ (e + 1) ∧ toDouble N ≤ N + 2 ^ (e - 53) ∧
      N ≤ toDouble N + 2 ^ (e - 53) := by
  unfold toDouble
  simp only [log2_eq_of_bounds h1 h2, if_neg (show ¬ e ≤ 52 by omega)]
  have hdm := Nat.div_add_mod N (2 ^ (e - 52))
  have hr := Nat.mod_lt N (Nat.two_pow_pos (e - 52))
  generalize N / 2 ^ (e - 52) = q at hdm ⊢
  generalize N % 2 ^ (e - 52) = r at hdm hr ⊢
  interval_cases e <;> norm_num at h1 h2 hdm hr ⊢ <;> split_ifs <;> omega

/-- Characterisation of the nearest integer to a square root. -/
theorem nearest_sqrt_ge_iff (X y : Nat) (hy : 1 ≤ y) :
    y ≤ (if X ≤ Nat.sqrt X * Nat.sqrt X + Nat.sqrt X then Nat.sqrt X else Nat.sqrt X + 1) ↔
      y * y < X + y := by
  have hm1 := Nat.sqrt_le X
  have hm2 := Nat.lt_succ_sqrt X
  generalize Nat.sqrt X = m at hm1 hm2 ⊢
  simp only [Nat.succ_eq_add_one] at hm2
  split_ifs with h
  · constructor
    · intro hle
      have : y * y ≤ m * m := Nat.mul_le_mul hle hle
      omega
    · intro hlt
      by_contra hc
      have h1 : m + 1 ≤ y := by omega
      have h2 : (m + 1) * y ≤ y * y := Nat.mul_le_mul_right y h1
      have h3 : m * (m + 1) ≤ m * y := Nat.mul_le_mul_left m h1
      have e1 : (m + 1) * y = m * y + y := by ring
      have e2 : m * (m + 1) = m * m + m := by ring
      omega
  · constructor
    · intro hle
      rcases Nat.lt_or_ge y (m + 1) with h1 | h1
      · have : y * y ≤ m * m := Nat.mul_le_mul (by omega) (by omega)
        omega
      · have e0 : y = m + 1 := by omega
        subst e0
        have e1 : (m + 1) * (m + 1) = m * m + m + (m + 1) := by ring
        omega
    · intro hlt
      by_contra hc
      have h1 : m + 2 ≤ y := by omega
      have h2 : (m + 2) * y ≤ y * y := Nat.mul_le_mul_right y h1
      have h3 : (m + 1) * (m + 2) ≤ (m + 1) * y := Nat.mul_le_mul_left (m + 1) h1
      have e1 : (m + 2) * y = (m + 1) * y + y := by ring
      have e2 : (m + 1) * (m + 2) = (m + 1) * (m + 1) + (m + 1) := by ring
      omega

/-- Comparison of the truncated rounded root of the double `d` with an integer
`x`, in terms of the binade scale `T`. -/
theorem le_sqrtDouble_iff (d x : Nat) (hx : 1 ≤ x) :
    x ≤ (sqrtDouble d).1 / (sqrtDouble d).2 ↔
      x * x * 2 ^ (52 - Nat.log2 d / 2) < d * 2 ^ (52 - Nat.log2 d / 2) + x := by
  unfold sqrtDouble
  simp only
  have hT : 0 < 2 ^ (52 - Nat.log2 d / 2) := Nat.two_pow_pos _
  generalize 2 ^ (52 - Nat.log2 d / 2) = T at hT ⊢
  rw [Nat.le_div_iff_mul_le hT, nearest_sqrt_ge_iff _ _ (Nat.mul_pos hx hT)]
  have e1 : x * T * (x * T) = (x * x * T) * T := by ring
  have e2 : d * T * T + x * T = (d * T + x) * T := by ring
  rw [e1, e2]
  exact Nat.mul_lt_mul_right hT

theorem sq_lt_sq_imp {a b : Nat} (h : a * a < b * b) : a < b := by
  by_contra hc
  have : b * b ≤ a * a := Nat.mul_le_mul (by omega) (by omega)
  omega

/-- The computed bound is never below the integer square root. -/
theorem sqrtNat_ge {N : Nat} (hN : 1 ≤ N) (h63 : N < 2 ^ 63) {x : Nat} (hx : x * x ≤ N) :
    x ≤ sqrtNat N := by
  rcases Nat.eq_zero_or_pos x with h0 | h0
  · omega
  unfold sqrtNat
  rw [le_sqrtDouble_iff _ _ h0]
  obtain ⟨hl1, hl2⟩ := log2_bounds hN
  have he : Nat.log2 N ≤ 62 := by
    have := (Nat.log2_lt (show N ≠ 0 by omega)).2 h63
    omega
  generalize Nat.log2 N = e at hl1 hl2 he
  rcases Nat.lt_or_ge (toDouble N) (x * x) with hd | hd
  · have he1 : 53 ≤ e := by
      by_contra hc
      have := toDouble_small (show e ≤ 52 by omega) hl1 hl2
      omega
    obtain ⟨f1, f2, f3, f4⟩ := toDouble_large he1 he hl1 hl2
    have hlog : Nat.log2 (toDouble N) = e := log2_eq_of_bounds f1 (by omega)
    rw [hlog]
    generalize toDouble N = d at hd f1 f2 f3 f4 ⊢
    interval_cases e <;> norm_num at hl1 hl2 f1 f2 f3 f4 ⊢
    · have hx2 : 2 ^ 26 < x := sq_lt_sq_imp (by norm_num; omega)
      norm_num at hx2; generalize x * x = y at *; omega
    · have hx2 : 2 ^ 27 < x := sq_lt_sq_imp (by norm_num; omega)
      norm_num at hx2; generalize x * x = y at *; omega
    · have hx2 : 2 ^ 27 < x := sq_lt_sq_imp (by norm_num; omega)
      norm_num at hx2; generalize x * x = y at *; omega
    · have hx2 : 2 ^ 28 < x := sq_lt_sq_imp (by norm_num; omega)
      norm_num at hx2; generalize x * x = y at *; omega
    · have hx2 : 2 ^ 28 < x := sq_lt_sq_imp (by norm_num; omega)
      norm_num at hx2; generalize x * x = y at *; omega
    · have hx2 : 2 ^ 29 < x := sq_lt_sq_imp (by norm_num; omega)
      norm_num at hx2; generalize x * x = y at *; omega
    · have hx2 : 2 ^ 29 < x := sq_lt_sq_imp (by norm_num; omega)
      norm_num at hx2; generalize x * x = y at *; omega
    · have hx2 : 2 ^ 30 < x := sq_lt_sq_imp (by norm_num; omega)
      norm_num at hx2; generalize x * x = y at *; omega
    · have hx2 : 2 ^ 30 < x := sq_lt_sq_imp (by norm_num; omega)
      norm_num at hx2; generalize x * x = y at *; omega
    · have hx2 : 2 ^ 31 < x := sq_lt_sq_imp (by norm_num; omega)
      norm_num at hx2; generalize x * x = y at *; omega
  · have := Nat.mul_le_mul_right (2 ^ (52 - Nat.log2 (toDouble N) / 2)) hd
    omega

/-- Bounds on the double nearest to a positive `long long` and on the binade
scale of its square root. -/
theorem toDouble_coarse {N : Nat} (hN : 1 ≤ N) (h63 : N < 2 ^ 63) :
    toDouble N ≤ 2 ^ 63 ∧ 2 ^ 21 ≤ 2 ^ (52 - Nat.log2 (toDouble N) / 2) ∧
      (N < 2 ^ 53 → toDouble N = N) ∧ toDouble N ≤ N + 2 ^ 9 := by
  obtain ⟨hl1, hl2⟩ := log2_bounds hN
  have he : Nat.log2 N ≤ 62 := by
    have := (Nat.log2_lt (show N ≠ 0 by omega)).2 h63
    omega
  generalize Nat.log2 N = e at hl1 hl2 he
  have hp1 : (2 : Nat) ^ (e + 1) ≤ 2 ^ 63 := Nat.pow_le_pow_right (by norm_num) (by omega)
  have key : toDouble N ≤ 2 ^ 63 ∧ (N < 2 ^ 53 → toDouble N = N) ∧ toDouble N ≤ N + 2 ^ 9 := by
    rcases Nat.lt_or_ge e 53 with h | h
    · have := toDouble_small (show e ≤ 52 by omega) hl1 hl2
      rw [this]
      exact ⟨by omega, fun _ => rfl, by omega⟩
    · obtain ⟨f1, f2, f3, f4⟩ := toDouble_large h he hl1 hl2
      have hp2 : (2 : Nat) ^ (e - 53) ≤ 2 ^ 9 := Nat.pow_le_pow_right (by norm_num) (by omega)
      have hp3 : (2 : Nat) ^ 53 ≤ 2 ^ e := Nat.pow_le_pow_right (by norm_num) h
      exact ⟨by omega, fun h53 => by omega, by omega⟩
  refine ⟨key.1, ?_, key.2.1, key.2.2⟩
  apply Nat.pow_le_pow_right (by norm_num)
  have hd0 : toDouble N ≠ 0 := by
    intro h0
    rcases Nat.lt_or_ge N (2 ^ 53) with h | h
    · have := key.2.1 h; omega
    · rcases Nat.lt_or_ge e 53 with h5 | h5
      · have : (2 : Nat) ^ (e + 1) ≤ 2 ^ 53 := Nat.pow_le_pow_right (by norm_num) (by omega)
        omega
      · have f1 := (toDouble_large h5 he hl1 hl2).1
        have := Nat.two_pow_pos e
        omega
  have : Nat.log2 (toDouble N) < 64 := (Nat.log2_lt hd0).2 (by have := key.1; omega)
  omega

/-- A divisor of `n` up to the computed bound is at most the square root of `n`. -/
theorem sqrtNat_dvd {N : Nat} (hN : 1 ≤ N) (h63 : N < 2 ^ 63) {i : Nat} (hi : 1 ≤ i)
    (hle : i ≤ sqrtNat N) (hdvd : i ∣ N) : i * i ≤ N := by
  unfold sqrtNat at hle
  rw [le_sqrtDouble_iff _ _ hi] at hle
  obtain ⟨c1, c2, c3, c4⟩ := toDouble_coarse hN h63
  generalize 2 ^ (52 - Nat.log2 (toDouble N) / 2) = T at hle c2
  generalize toDouble N = d at hle c1 c3 c4
  by_contra hc
  obtain ⟨q, hq⟩ := hdvd
  have hqi : q < i := by
    by_contra h
    have : i * i ≤ i * q := Nat.mul_le_mul_left i (by omega)
    omega
  have h1 : i * (q + 1) ≤ i * i := Nat.mul_le_mul_left i (by omega)
  have h2 : N + i ≤ i * i := by
    have : i * (q + 1) = i * q + i := by ring
    omega
  have h3 : (N + i) * T ≤ i * i * T := Nat.mul_le_mul_right T h2
  have e3 : (N + i) * T = N * T + i * T := by ring
  norm_num at c2
  rcases Nat.lt_or_ge N (2 ^ 53) with h53 | h53
  · rw [c3 h53] at hle
    have : i * 1 ≤ i * T := Nat.mul_le_mul_left i (by omega)
    omega
  · have hi10 : 2 ^ 10 < i := sq_lt_sq_imp (by norm_num; norm_num at h53; omega)
    norm_num at hi10 c4
    have h4 : d * T ≤ (N + 512) * T := Nat.mul_le_mul_right T c4
    have e4 : (N + 512) * T = N * T + 512 * T := by ring
    obtain ⟨j, rfl⟩ : ∃ j, i = j + 512 := ⟨i - 512, by omega⟩
    have e5 : (j + 512) * T = j * T + 512 * T := by ring
    have h5 : j * 2 ≤ j * T := Nat.mul_le_mul_left j (by omega)
    omega

/-- The computed bound is at most `3037000500`. -/
theorem sqrtNat_le {N : Nat} (hN : 1 ≤ N) (h63 : N < 2 ^ 63) : sqrtNat N ≤ 3037000500 := by
  by_contra hc
  have hle : 3037000501 ≤ sqrtNat N := by omega
  unfold sqrtNat at hle
  rw [le_sqrtDouble_iff _ _ (by norm_num)] at hle
  obtain ⟨c1, c2, c3, c4⟩ := toDouble_coarse hN h63
  generalize 2 ^ (52 - Nat.log2 (toDouble N) / 2) = T at hle c2
  generalize toDouble N = d at hle c1 c3 c4
  norm_num at c1 c2 hle
  have h4 : d * T ≤ 9223372036854775808 * T := Nat.mul_le_mul_right T c1
  omega

/-! ## `optimizedDivisors` computes the specification's sequence -/

theorem emod_natCast_eq_zero_iff {N x : Nat} : ((N : Int) % (x : Int) = 0) ↔ x ∣ N := by
  rw [← Int.natCast_dvd_natCast]
  exact ⟨Int.dvd_of_emod_eq_zero, Int.emod_eq_zero_of_dvd⟩

/-- The run of the optimized routine on a positive `long long`, given fuel
beyond the computed bound: the bound, the state after the scan, the returned
sequence, and its agreement with the specification's sequence. -/
theorem optimizedDivisors_parts {n : Int} (h1 : 1 ≤ n) (h2 : n ≤ LLONG_MAX) {fuel : Nat}
    (hf : sqrtNat n.toNat < fuel) :
    sqrtBound n = some ((sqrtNat n.toNat : Nat) : Int) ∧
      scanLoop fuel n ((sqrtNat n.toNat : Nat) : Int) 1 [] [] =
        Outcome.done (smallOf n 1 (sqrtNat n.toNat), largeOf n 1 (sqrtNat n.toNat)) ∧
      optimizedDivisors fuel n =
        Outcome.done (smallOf n 1 (sqrtNat n.toNat) ++ (largeOf n 1 (sqrtNat n.toNat)).reverse) ∧
      smallOf n 1 (sqrtNat n.toNat) ++ (largeOf n 1 (sqrtNat n.toNat)).reverse =
        specDivisors n := by
  obtain ⟨N, rfl⟩ : ∃ N : Nat, n = (N : Int) := ⟨n.toNat, by omega⟩
  have hN : 1 ≤ N := by omega
  have h63 : N < 2 ^ 63 := by unfold LLONG_MAX at h2; norm_num; omega
  simp only [Int.toNat_ofNat] at hf ⊢
  have hb := sqrtNat_le hN h63
  have hbl : ((sqrtNat N : Nat) : Int) + 1 ≤ LLONG_MAX := by unfold LLONG_MAX; omega
  have hlen : (largeOf (N : Int) 1 ((sqrtNat N : Nat) : Int).toNat).length ≤ 2 ^ 31 := by
    simp only [Int.toNat_ofNat]
    exact le_trans (largeOf_length_le _ _ _) (smallOf_length_bound hN h63 hb)
  refine ⟨by simpa using sqrtBound_pos h1, ?_, ?_, ?_⟩
  · have := scanLoop_eq (N : Int) ((sqrtNat N : Nat) : Int) (by omega) hbl (sqrtNat N) fuel 1
      [] [] (le_refl 1) (by omega) hf
    simpa using this
  · unfold optimizedDivisors
    rw [sqrtBound_pos h1]
    simp only [Int.toNat_ofNat]
    rw [optimizedBody_eq (by omega) (by omega) hbl hlen (by simpa using hf)]
    simp only [Int.toNat_ofNat]
  · apply small_append_large_eq h1
    · intro d hd1 hdd
      obtain ⟨x, rfl⟩ : ∃ x : Nat, d = (x : Int) := ⟨d.toNat, by omega⟩
      have : x * x ≤ N := by exact_mod_cast hdd
      exact_mod_cast sqrtNat_ge hN h63 this
    · intro d hd1 hdb hmod
      obtain ⟨x, rfl⟩ : ∃ x : Nat, d = (x : Int) := ⟨d.toNat, by omega⟩
      have hx : x ∣ N := emod_natCast_eq_zero_iff.1 hmod
      have := sqrtNat_dvd hN h63 (by omega) (by exact_mod_cast hdb) hx
      exact_mod_cast this

/-- For every positive `long long` the optimized routine returns the
specification's sequence, given fuel beyond the computed bound. -/
theorem optimizedDivisors_eq {n : Int} (h1 : 1 ≤ n) (h2 : n ≤ LLONG_MAX) {fuel : Nat}
    (hf : sqrtNat n.toNat < fuel) : optimizedDivisors fuel n = Outcome.done (specDivisors n) := by
  obtain ⟨_, _, h3, h4⟩ := optimizedDivisors_parts h1 h2 hf
  rw [h3, h4]

/-- No loop of the optimized routine runs more than `3037000500` times on a
positive `long long`. -/
theorem sqrtNat_lt_fuel {n : Int} (h1 : 1 ≤ n) (h2 : n ≤ LLONG_MAX) {fuel : Nat}
    (hf : 3037000500 < fuel) : sqrtNat n.toNat < fuel := by
  have : n.toNat < 2 ^ 63 := by unfold LLONG_MAX at h2; norm_num; omega
  have := sqrtNat_le (show 1 ≤ n.toNat by omega) this
  omega

/-! ## Further facts about the specification's sequence -/

theorem specDivisors_nodup (n : Int) : (specDivisors n).Nodup :=
  (specDivisors_pairwise n).imp (fun h => ne_of_lt h)

theorem eq_of_pairwise_of_mem {l1 l2 : List Int} (s1 : l1.Pairwise (· < ·))
    (s2 : l2.Pairwise (· < ·)) (h : ∀ d, d ∈ l1 ↔ d ∈ l2) : l1 = l2 :=
  List.eq_of_perm_of_sorted
    ((List.perm_ext_iff_of_nodup (s1.imp (fun h => ne_of_lt h))
      (s2.imp (fun h => ne_of_lt h))).2 h) s1 s2

theorem specDivisors_length (N : Nat) :
    (specDivisors (N : Int)).length = (Nat.divisors N).card := by
  have e : specDivisors (N : Int) =
      ((List.range' 1 N).filter (fun d => decide (d ∣ N))).map Int.ofNat := by
    unfold specDivisors
    simp only [Int.toNat_ofNat]
    rw [List.filter_map]
    congr 1
    apply List.filter_congr
    intro x _
    simp [Int.natCast_dvd_natCast]
  have nd : ((List.range' 1 N).filter (fun d => decide (d ∣ N))).Nodup :=
    (List.nodup_range' 1 N).filter _
  rw [e, List.length_map, ← List.toFinset_card_of_nodup nd]
  congr 1
  ext d
  simp only [List.mem_toFinset, List.mem_filter, List.mem_range'_1, decide_eq_true_eq,
    Nat.mem_divisors]
  constructor
  · rintro ⟨⟨h1, h2⟩, h3⟩
    exact ⟨h3, by omega⟩
  · rintro ⟨h3, h0⟩
    have := Nat.le_of_dvd (Nat.pos_of_ne_zero h0) h3
    have := Nat.pos_of_dvd_of_pos h3 (Nat.pos_of_ne_zero h0)
    exact ⟨⟨by omega, by omega⟩, h3⟩

theorem specDivisors_prime {N : Nat} (hp : Nat.Prime N) :
    specDivisors (N : Int) = [1, (N : Int)] := by
  have h1 : 1 < N := hp.one_lt
  apply eq_of_pairwise_of_mem (specDivisors_pairwise _)
  · simp only [List.pairwise_cons, List.mem_singleton, forall_eq, List.not_mem_nil,
      false_implies, implies_true, List.Pairwise.nil, and_true]
    exact_mod_cast h1
  · intro d
    rw [mem_specDivisors]
    simp only [List.mem_cons, List.mem_singleton, List.not_mem_nil, or_false]
    constructor
    · rintro ⟨hd1, hd2, hd3⟩
      obtain ⟨x, rfl⟩ : ∃ x : Nat, d = (x : Int) := ⟨d.toNat, by omega⟩
      rcases (Nat.dvd_prime hp).1 (emod_natCast_eq_zero_iff.1 hd3) with h | h
      · left; exact_mod_cast h
      · right; exact_mod_cast h
    · rintro (rfl | rfl)
      · exact ⟨le_refl _, by omega, Int.emod_one _⟩
      · exact ⟨by omega, le_refl _, Int.emod_self⟩

theorem specDivisors_head {n : Int} (hn : 1 ≤ n) : (specDivisors n).head? = some 1 := by
  obtain ⟨k, hk⟩ : ∃ k : Nat, n.toNat = k + 1 := ⟨n.toNat - 1, by omega⟩
  rw [specDivisors_eq_smallOf, hk, smallOf, candidates_succ, List.filter_cons]
  simp

theorem specDivisors_getLast {n : Int} (hn : 1 ≤ n) : (specDivisors n).getLast? = some n := by
  obtain ⟨k, hk⟩ : ∃ k : Nat, n.toNat = k + 1 := ⟨n.toNat - 1, by omega⟩
  have e1 : ((1 + k : Nat) : Int) = n := by omega
  rw [specDivisors_eq_smallOf, hk, smallOf_append]
  have e2 : smallOf n (1 + k) 1 = [n] := by
    simp only [smallOf, candidates_succ, candidates_zero, List.filter_cons, e1]
    simp
  rw [e2, List.getLast?_concat]

/-! ## Values of the floating-point bound -/

/-- Below `2 ^ 52` the computed bound is the integer square root. -/
theorem sqrtNat_small {N : Nat} (hN : 1 ≤ N) (h52 : N < 2 ^ 52) : sqrtNat N = Nat.sqrt N := by
  have h63 : N < 2 ^ 63 := lt_of_lt_of_le h52 (by norm_num)
  apply le_antisymm
  · by_contra hc
    have hle : Nat.sqrt N + 1 ≤ sqrtNat N := by omega
    unfold sqrtNat at hle
    rw [le_sqrtDouble_iff _ _ (by omega)] at hle
    obtain ⟨hl1, hl2⟩ := log2_bounds hN
    have he : Nat.log2 N ≤ 51 := by
      have := (Nat.log2_lt (show N ≠ 0 by omega)).2 h52
      omega
    have hd := toDouble_small (show Nat.log2 N ≤ 52 by omega) hl1 hl2
    rw [hd] at hle
    have hT : (2 : Nat) ^ 27 ≤ 2 ^ (52 - Nat.log2 N / 2) :=
      Nat.pow_le_pow_right (by norm_num) (by omega)
    generalize 2 ^ (52 - Nat.log2 N / 2) = T at hle hT
    have hs := Nat.sqrt_le N
    have hs2 := Nat.lt_succ_sqrt N
    simp only [Nat.succ_eq_add_one] at hs2
    have hs3 : Nat.sqrt N < 2 ^ 26 := sq_lt_sq_imp (by norm_num; norm_num at h52; omega)
    generalize Nat.sqrt N = m at *
    have h5 : (N + 1) * T ≤ (m + 1) * (m + 1) * T := Nat.mul_le_mul_right T (by omega)
    have e5 : (N + 1) * T = N * T + T := by ring
    norm_num at hT hs3
    omega
  · exact sqrtNat_ge hN h63 (Nat.sqrt_le N)

theorem sqrtNat_one : sqrtNat 1 = 1 := by
  rw [sqrtNat_small (by norm_num) (by norm_num)]
  exact (Nat.eq_sqrt.2 ⟨by norm_num, by norm_num⟩).symm

theorem sqrtNat_28 : sqrtNat 28 = 5 := by
  rw [sqrtNat_small (by norm_num) (by norm_num)]
  exact (Nat.eq_sqrt.2 ⟨by norm_num, by norm_num⟩).symm

theorem sqrtNat_100 : sqrtNat 100 = 10 := by
  rw [sqrtNat_small (by norm_num) (by norm_num)]
  exact (Nat.eq_sqrt.2 ⟨by norm_num, by norm_num⟩).symm

/-- A number whose bits below the 53 leading ones are zero is a double. -/
theorem toDouble_exact {N e : Nat} (he : 52 < e) (h1 : 2 ^ e ≤ N) (h2 : N < 2 ^ (e + 1))
    (hr : N % 2 ^ (e - 52) = 0) : toDouble N = N := by
  unfold toDouble
  simp only [log2_eq_of_bounds h1 h2, if_neg (show ¬ e ≤ 52 by omega), hr]
  have hu : 0 < 2 ^ (e - 52) := Nat.two_pow_pos _
  rw [if_pos (by omega)]
  exact Nat.div_mul_cancel (Nat.dvd_of_mod_eq_zero hr)

theorem toDouble_1e18 : toDouble 1000000000000000000 = 1000000000000000000 :=
  toDouble_exact (e := 59) (by norm_num) (by norm_num) (by norm_num) (by norm_num)

/-- Evaluation of the bound from the binade exponent of the double. -/
theorem sqrtNat_eq_of {N e b : Nat} (hd : toDouble N = N) (h1 : 2 ^ e ≤ N)
    (h2 : N < 2 ^ (e + 1)) (hb : 1 ≤ b)
    (hlo : b * b * 2 ^ (52 - e / 2) < N * 2 ^ (52 - e / 2) + b)
    (hhi : N * 2 ^ (52 - e / 2) + (b + 1) ≤ (b + 1) * (b + 1) * 2 ^ (52 - e / 2)) :
    sqrtNat N = b := by
  have hl : Nat.log2 N = e := log2_eq_of_bounds h1 h2
  apply le_antisymm
  · by_contra hc
    have hle : b + 1 ≤ sqrtNat N := by omega
    unfold sqrtNat at hle
    rw [le_sqrtDouble_iff _ _ (by omega), hd, hl] at hle
    omega
  · unfold sqrtNat
    rw [le_sqrtDouble_iff _ _ hb, hd, hl]
    exact hlo

theorem sqrtNat_1e18 : sqrtNat 1000000000000000000 = 1000000000 :=
  sqrtNat_eq_of (e := 59) toDouble_1e18 (by norm_num) (by norm_num) (by norm_num)
    (by norm_num) (by norm_num)

/-! ## The naive loop at the largest `long long` -/

theorem naiveLoop_max_timeout (fuel : Nat) :
    ∀ (a : Nat) (divisors : List Int), 1 ≤ a → (a : Int) + fuel ≤ LLONG_MAX →
      naiveLoop fuel LLONG_MAX a divisors = Outcome.timeout := by
  induction fuel with
  | zero => intro a divisors _ _; simp [naiveLoop]
  | succ f ih =>
    intro a divisors ha hle
    have h1 : (a : Int) ≤ LLONG_MAX := by omega
    have h2 : ¬ (divUndefined LLONG_MAX a = true) := by
      simp [divUndefined_pos (show (1 : Int) ≤ a by omega)]
    have h3 : (a : Int) + 1 ≤ LLONG_MAX := by omega
    rw [naiveLoop, if_pos h1, if_neg h2]
    simp only [if_pos h3]
    have := ih (a + 1) (if Int.tmod LLONG_MAX a = 0 then divisors ++ [(a : Int)] else divisors)
      (by omega) (by push_cast; push_cast at hle; omega)
    push_cast at this
    exact this

theorem naiveLoop_max_undef :
    ∀ (k fuel a : Nat) (divisors : List Int), 1 ≤ a → (a : Int) + k = LLONG_MAX → k < fuel →
      naiveLoop fuel LLONG_MAX a divisors = Outcome.undef := by
  intro k
  induction k with
  | zero =>
    intro fuel a divisors ha hk hf
    obtain ⟨f, rfl⟩ : ∃ f, fuel = f + 1 := ⟨fuel - 1, by omega⟩
    have h1 : (a : Int) ≤ LLONG_MAX := by omega
    have h2 : ¬ (divUndefined LLONG_MAX a = true) := by
      simp [divUndefined_pos (show (1 : Int) ≤ a by omega)]
    have h3 : ¬ ((a : Int) + 1 ≤ LLONG_MAX) := by omega
    rw [naiveLoop, if_pos h1, if_neg h2]
    simp only [if_neg h3]
  | succ k ih =>
    intro fuel a divisors ha hk hf
    obtain ⟨f, rfl⟩ : ∃ f, fuel = f + 1 := ⟨fuel - 1, by omega⟩
    have h1 : (a : Int) ≤ LLONG_MAX := by omega
    have h2 : ¬ (divUndefined LLONG_MAX a = true) := by
      simp [divUndefined_pos (show (1 : Int) ≤ a by omega)]
    have h3 : (a : Int) + 1 ≤ LLONG_MAX := by omega
    rw [naiveLoop, if_pos h1, if_neg h2]
    simp only [if_pos h3]
    have := ih f (a + 1) (if Int.tmod LLONG_MAX a = 0 then divisors ++ [(a : Int)] else divisors)
      (by omega) (by push_cast; push_cast at hk; omega) (by omega)
    push_cast at this
    exact this

/-! ## Agreement of the two routines below `LLONG_MAX` -/

/-- For a positive `n` below `LLONG_MAX` both routines return the
specification's sequence, hence the same sequence. -/
theorem naive_eq_optimized {n : Int} (h1 : 1 ≤ n) (h2 : n < LLONG_MAX) {fuel : Nat}
    (hf1 : n.toNat < fuel) (hf2 : sqrtNat n.toNat < fuel) :
    naiveDivisors fuel n = Outcome.done (specDivisors n) ∧
      optimizedDivisors fuel n = Outcome.done (specDivisors n) :=
  ⟨naiveDivisors_eq h1 h2 hf1, optimizedDivisors_eq h1 (le_of_lt h2) hf2⟩

/-- For a positive `n` below `LLONG_MAX` the naive routine returns the strictly
ascending sequence of exactly the divisors of `n`. -/
theorem naiveDivisors_spec {n : Int} (h1 : 1 ≤ n) (h2 : n < LLONG_MAX) {fuel : Nat}
    (hf : n.toNat < fuel) :
    ∃ l : List Int, naiveDivisors fuel n = Outcome.done l ∧ l.Pairwise (· < ·) ∧ l.Nodup ∧
      ∀ d : Int, d ∈ l ↔ 1 ≤ d ∧ d ≤ n ∧ n % d = 0 :=
  ⟨specDivisors n, naiveDivisors_eq h1 h2 hf, specDivisors_pairwise n, specDivisors_nodup n,
    fun _ => mem_specDivisors⟩

theorem llong_max_not_prime : ¬ Nat.Prime 9223372036854775807 := by
  intro hp
  have h7 : 7 ∣ 9223372036854775807 := by norm_num
  rcases (Nat.dvd_prime hp).1 h7 with h | h <;> omega

/-- The run of the optimized routine on a positive `long long` whose computed
bound is known. -/
theorem optimized_run_of_bound {N b : Nat} (hN : 1 ≤ N) (h2 : (N : Int) ≤ LLONG_MAX)
    (hb : sqrtNat N = b) {fuel : Nat} (hf : b < fuel) :
    sqrtBound (N : Int) = some (b : Int) ∧
      scanLoop fuel (N : Int) (b : Int) 1 [] [] =
        Outcome.done (smallOf (N : Int) 1 b, largeOf (N : Int) 1 b) ∧
      optimizedDivisors fuel (N : Int) = Outcome.done (specDivisors (N : Int)) := by
  have h1 : (1 : Int) ≤ (N : Int) := by omega
  have hf1 : sqrtNat (N : Int).toNat < fuel := by simpa [hb] using hf
  obtain ⟨p1, p2, p3, p4⟩ := optimizedDivisors_parts h1 h2 hf1
  simp only [Int.toNat_ofNat, hb] at p1 p2 p3 p4
  exact ⟨p1, p2, by rw [p3, p4]⟩

/-! ## The divisors of `10 ^ 18` -/

theorem dvd_1e18_iff (x : Nat) :
    x ∣ 1000000000000000000 ↔ ∃ a b : Nat, a ≤ 18 ∧ b ≤ 18 ∧ x = 2 ^ a * 5 ^ b := by
  have e : (1000000000000000000 : Nat) = 2 ^ 18 * 5 ^ 18 := by norm_num
  rw [e, Nat.dvd_mul]
  constructor
  · rintro ⟨y, z, hy, hz, rfl⟩
    obtain ⟨a, ha, rfl⟩ := (Nat.dvd_prime_pow Nat.prime_two).1 hy
    obtain ⟨b, hb, rfl⟩ := (Nat.dvd_prime_pow Nat.prime_five).1 hz
    exact ⟨a, b, ha, hb, rfl⟩
  · rintro ⟨a, b, ha, hb, rfl⟩
    exact ⟨2 ^ a, 5 ^ b, pow_dvd_pow 2 ha, pow_dvd_pow 5 hb, rfl⟩

theorem card_divisors_1e18 : (Nat.divisors 1000000000000000000).card = 361 := by
  have e : (1000000000000000000 : Nat) = 2 ^ 18 * 5 ^ 18 := by norm_num
  have c : Nat.Coprime (2 ^ 18) (5 ^ 18) := Nat.Coprime.pow _ _ (by norm_num)
  rw [e, c.card_divisors_mul, Nat.divisors_prime_pow Nat.prime_two,
    Nat.divisors_prime_pow Nat.prime_five, Finset.card_map, Finset.card_map, Finset.card_range]

/-- Every quotient and remainder formed by the scan loop on a non-negative `n`
and a positive counter lies between `0` and `n`. -/
theorem quotient_in_range {n i : Int} (hn : 0 ≤ n) (hn2 : n ≤ LLONG_MAX) (hi : 1 ≤ i) :
    divUndefined n i = false ∧ 0 ≤ Int.tdiv n i ∧ Int.tdiv n i ≤ LLONG_MAX ∧
      0 ≤ Int.tmod n i ∧ Int.tmod n i ≤ LLONG_MAX := by
  have h1 : Int.tdiv n i = n / i := tdiv_eq_ediv hn (by omega)
  have h2 : Int.tmod n i = n % i := Int.tmod_eq_emod hn (by omega)
  have h3 : 0 ≤ n / i := Int.ediv_nonneg hn (by omega)
  have h4 : n / i ≤ n := Int.ediv_le_self i hn
  have h5 : 0 ≤ n % i := Int.emod_nonneg n (by omega)
  have h6 : n % i < i := Int.emod_lt_of_pos n (by omega)
  have h7 : n % i ≤ n := by
    rcases lt_or_le n i with h | h
    · rw [Int.emod_eq_of_lt hn h]
    · omega
  rw [h1, h2]
  exact ⟨divUndefined_pos hi, h3, by omega, h5, by omega⟩

/-! ## The claims -/

/-- C1, at the input `n = LLONG_MAX = 2^63 - 1`: `naiveDivisors` returns no
sequence, whatever the iteration budget (the run ends in the signed overflow of
`i++` or is still looping), whereas `optimizedDivisors` returns the
specification's sequence.  So the two routines do not return the same sequence
on every positive `long long`. -/
theorem naive_differs_from_optimized_at_max :
    (∀ fuel : Nat, naiveDivisors fuel LLONG_MAX = Outcome.undef ∨
        naiveDivisors fuel LLONG_MAX = Outcome.timeout) ∧
      optimizedDivisors 3037000501 LLONG_MAX = Outcome.done (specDivisors LLONG_MAX) := by
  refine ⟨fun fuel => naiveLoop_max fuel 1 [] (by decide), ?_⟩
  exact optimizedDivisors_eq (by decide) (le_refl _)
    (sqrtNat_lt_fuel (by decide) (le_refl _) (by norm_num))

/-- C2, at the input `n = LLONG_MAX = 2^63 - 1`: `naiveDivisors` does not return
the list of divisors.  With fewer than `2^63 - 1` iterations allowed the loop is
still running, and the iteration number `2^63 - 1` ends in the signed overflow
of `i++`. -/
theorem naiveDivisors_at_max (fuel : Nat) :
    naiveDivisors fuel LLONG_MAX =
      if fuel < 9223372036854775807 then Outcome.timeout else Outcome.undef := by
  unfold naiveDivisors
  split_ifs with h
  · exact naiveLoop_max_timeout fuel 1 [] (le_refl 1) (by unfold LLONG_MAX; push_cast; omega)
  · exact naiveLoop_max_undef 9223372036854775806 fuel 1 [] (le_refl 1)
      (by unfold LLONG_MAX; norm_num) (by omega)

/-- C3: for every `long long` `n ≥ 1`, a value `d` is an element of
`optimizedDivisors(n)` if and only if `1 ≤ d ≤ n` and `n mod d = 0`, and the
length of the returned sequence is the number of positive divisors of `n`; no
value is listed twice. -/
theorem optimizedDivisors_mem_length (n : Int) (h1 : 1 ≤ n) (h2 : n ≤ LLONG_MAX) (fuel : Nat)
    (hf : sqrtNat n.toNat < fuel) :
    ∃ l : List Int, optimizedDivisors fuel n = Outcome.done l ∧
      (∀ d : Int, d ∈ l ↔ 1 ≤ d ∧ d ≤ n ∧ n % d = 0) ∧
      l.length = (Nat.divisors n.toNat).card ∧ l.Nodup := by
  refine ⟨specDivisors n, optimizedDivisors_eq h1 h2 hf, fun _ => mem_specDivisors, ?_,
    specDivisors_nodup n⟩
  obtain ⟨N, rfl⟩ : ∃ N : Nat, n = (N : Int) := ⟨n.toNat, by omega⟩
  simpa using specDivisors_length N

theorem optimizedDivisors_mem_length_witness :
    ∃ l : List Int, optimizedDivisors 6 28 = Outcome.done l ∧
      (∀ d : Int, d ∈ l ↔ 1 ≤ d ∧ d ≤ 28 ∧ (28 : Int) % d = 0) ∧
      l.length = (Nat.divisors (28 : Int).toNat).card ∧ l.Nodup :=
  optimizedDivisors_mem_length 28 (by decide) (by decide) 6
    (by rw [show (28 : Int).toNat = 28 from rfl, sqrtNat_28]; decide)

/-- C4: for every `long long` `n ≥ 1`, the sequence returned by
`optimizedDivisors(n)` is `smallDivisors` followed by `largeDivisors` reversed,
and it is strictly ascending: each element is less than the next one, every
element is less than all later ones, and every small divisor is less than
every large divisor (so the order also holds across the junction). -/
theorem optimizedDivisors_strictly_ascending (n : Int) (h1 : 1 ≤ n) (h2 : n ≤ LLONG_MAX)
    (fuel : Nat) (hf : sqrtNat n.toNat < fuel) :
    ∃ (sqrtN : Int) (sm lg : List Int), sqrtBound n = some sqrtN ∧
      scanLoop fuel n sqrtN 1 [] [] = Outcome.done (sm, lg) ∧
      optimizedDivisors fuel n = Outcome.done (sm ++ lg.reverse) ∧
      (sm ++ lg.reverse).Chain' (· < ·) ∧ (sm ++ lg.reverse).Pairwise (· < ·) ∧
      (∀ x ∈ sm, ∀ y ∈ lg, x < y) := by
  obtain ⟨p1, p2, p3, p4⟩ := optimizedDivisors_parts h1 h2 hf
  have hs : (smallOf n 1 (sqrtNat n.toNat) ++
      (largeOf n 1 (sqrtNat n.toNat)).reverse).Pairwise (· < ·) := by
    rw [p4]; exact specDivisors_pairwise n
  refine ⟨_, _, _, p1, p2, p3, hs.chain', hs, ?_⟩
  intro x hx y hy
  exact (List.pairwise_append.1 hs).2.2 x hx y (List.mem_reverse.2 hy)

theorem optimizedDivisors_strictly_ascending_witness :
    ∃ (sqrtN : Int) (sm lg : List Int), sqrtBound 28 = some sqrtN ∧
      scanLoop 6 28 sqrtN 1 [] [] = Outcome.done (sm, lg) ∧
      optimizedDivisors 6 28 = Outcome.done (sm ++ lg.reverse) ∧
      (sm ++ lg.reverse).Chain' (· < ·) ∧ (sm ++ lg.reverse).Pairwise (· < ·) ∧
      (∀ x ∈ sm, ∀ y ∈ lg, x < y) :=
  optimizedDivisors_strictly_ascending 28 (by decide) (by decide) 6
    (by rw [show (28 : Int).toNat = 28 from rfl, sqrtNat_28]; decide)

/-- C5: for every `k ≥ 1` whose square is a `long long`, the value `k` occurs
exactly once in `optimizedDivisors(k * k)`. -/
theorem optimizedDivisors_square_root_once (k : Int) (h1 : 1 ≤ k) (h2 : k * k ≤ LLONG_MAX)
    (fuel : Nat) (hf : sqrtNat (k * k).toNat < fuel) :
    ∃ l : List Int, optimizedDivisors fuel (k * k) = Outcome.done l ∧ l.count k = 1 := by
  have hkk : 1 ≤ k * k := by nlinarith
  refine ⟨specDivisors (k * k), optimizedDivisors_eq hkk h2 hf, ?_⟩
  apply List.count_eq_one_of_mem (specDivisors_nodup _)
  rw [mem_specDivisors]
  exact ⟨h1, by nlinarith, Int.mul_emod_left k k⟩

theorem optimizedDivisors_square_root_once_witness :
    ∃ l : List Int, optimizedDivisors 11 (10 * 10) = Outcome.done l ∧ l.count 10 = 1 :=
  optimizedDivisors_square_root_once 10 (by decide) (by decide) 11
    (by rw [show ((10 : Int) * 10).toNat = 100 from rfl, sqrtNat_100]; decide)

/-- C6: for every prime `long long` `n`, both `naiveDivisors(n)` and
`optimizedDivisors(n)` return exactly the two-element sequence `[1, n]`. -/
theorem divisors_of_prime (n : Int) (hp : Nat.Prime n.toNat) (h2 : n ≤ LLONG_MAX) (fuel : Nat)
    (hf : n.toNat < fuel) (hf2 : sqrtNat n.toNat < fuel) :
    naiveDivisors fuel n = Outcome.done [1, n] ∧
      optimizedDivisors fuel n = Outcome.done [1, n] := by
  have hp1 := hp.one_lt
  have h1 : 1 ≤ n := by omega
  have hne : n ≠ LLONG_MAX := by
    intro h
    rw [h] at hp
    exact llong_max_not_prime hp
  have hlt : n < LLONG_MAX := lt_of_le_of_ne h2 hne
  have e : specDivisors n = [1, n] := by
    have := specDivisors_prime hp
    rwa [show ((n.toNat : Nat) : Int) = n by omega] at this
  rw [← e]
  exact naive_eq_optimized h1 hlt hf hf2

theorem divisors_of_prime_witness :
    naiveDivisors 8 7 = Outcome.done [1, 7] ∧ optimizedDivisors 8 7 = Outcome.done [1, 7] :=
  divisors_of_prime 7 (by rw [show (7 : Int).toNat = 7 from rfl]; norm_num) (by decide) 8
    (by decide)
    (by rw [show (7 : Int).toNat = 7 from rfl,
          sqrtNat_small (by norm_num) (by norm_num)]
        exact lt_of_le_of_lt (Nat.sqrt_le_self 7) (by norm_num))

/-- C7: for `n = 1` both routines return exactly `[1]`; in `optimizedDivisors`
the bound is `1`, the scan leaves `smallDivisors = [1]` and an empty
`largeDivisors`, the reverse traversal starts at index `-1` and appends
nothing. -/
theorem divisors_of_one (fuel : Nat) (hf : 1 < fuel) :
    naiveDivisors fuel 1 = Outcome.done [1] ∧
      sqrtBound 1 = some 1 ∧
      scanLoop fuel 1 1 1 [] [] = Outcome.done ([1], []) ∧
      startIndex ([] : List Int).length = -1 ∧
      reverseLoop fuel [] (-1) [1] = Outcome.done [1] ∧
      optimizedDivisors fuel 1 = Outcome.done [1] := by
  obtain ⟨p1, p2, p3⟩ := optimized_run_of_bound (N := 1) (le_refl 1) (by decide) sqrtNat_one hf
  have e1 : specDivisors ((1 : Nat) : Int) = [1] := by decide
  have e2 : smallOf ((1 : Nat) : Int) 1 1 = [1] := by decide
  have e3 : largeOf ((1 : Nat) : Int) 1 1 = [] := by decide
  rw [e1] at p3
  rw [e2, e3] at p2
  refine ⟨?_, p1, p2, by decide, ?_, p3⟩
  · have := @naiveDivisors_eq 1 (le_refl 1) (by decide) fuel (by simpa using hf)
    rw [this]; rfl
  · obtain ⟨f, rfl⟩ : ∃ f, fuel = f + 1 := ⟨fuel - 1, by omega⟩
    simp [reverseLoop]

theorem divisors_of_one_witness :
    naiveDivisors 2 1 = Outcome.done [1] ∧
      sqrtBound 1 = some 1 ∧
      scanLoop 2 1 1 1 [] [] = Outcome.done ([1], []) ∧
      startIndex ([] : List Int).length = -1 ∧
      reverseLoop 2 [] (-1) [1] = Outcome.done [1] ∧
      optimizedDivisors 2 1 = Outcome.done [1] :=
  divisors_of_one 2 (by decide)

/-- C8: for `n = 28` both routines return exactly `[1, 2, 4, 7, 14, 28]`. -/
theorem divisors_of_28 (fuel : Nat) (hf : 28 < fuel) :
    naiveDivisors fuel 28 = Outcome.done [1, 2, 4, 7, 14, 28] ∧
      optimizedDivisors fuel 28 = Outcome.done [1, 2, 4, 7, 14, 28] := by
  obtain ⟨_, _, p3⟩ := optimized_run_of_bound (N := 28) (by norm_num) (by decide) sqrtNat_28
    (show 5 < fuel by omega)
  have e1 : specDivisors ((28 : Nat) : Int) = [1, 2, 4, 7, 14, 28] := by decide
  rw [e1] at p3
  refine ⟨?_, p3⟩
  have := @naiveDivisors_eq 28 (by decide) (by decide) fuel (by simpa using hf)
  rw [this]; exact congrArg _ e1

theorem divisors_of_28_witness :
    naiveDivisors 29 28 = Outcome.done [1, 2, 4, 7, 14, 28] ∧
      optimizedDivisors 29 28 = Outcome.done [1, 2, 4, 7, 14, 28] :=
  divisors_of_28 29 (by decide)

/-- C9: for `n = 100` both routines return exactly
`[1, 2, 4, 5, 10, 20, 25, 50, 100]`, in which `10` occurs exactly once. -/
theorem divisors_of_100 (fuel : Nat) (hf : 100 < fuel) :
    naiveDivisors fuel 100 = Outcome.done [1, 2, 4, 5, 10, 20, 25, 50, 100] ∧
      optimizedDivisors fuel 100 = Outcome.done [1, 2, 4, 5, 10, 20, 25, 50, 100] ∧
      ([1, 2, 4, 5, 10, 20, 25, 50, 100] : List Int).count 10 = 1 := by
  obtain ⟨_, _, p3⟩ := optimized_run_of_bound (N := 100) (by norm_num) (by decide) sqrtNat_100
    (show 10 < fuel by omega)
  have e1 : specDivisors ((100 : Nat) : Int) = [1, 2, 4, 5, 10, 20, 25, 50, 100] := by decide
  rw [e1] at p3
  refine ⟨?_, p3, by decide⟩
  have := @naiveDivisors_eq 100 (by decide) (by decide) fuel (by simpa using hf)
  rw [this]; exact congrArg _ e1

theorem divisors_of_100_witness :
    naiveDivisors 101 100 = Outcome.done [1, 2, 4, 5, 10, 20, 25, 50, 100] ∧
      optimizedDivisors 101 100 = Outcome.done [1, 2, 4, 5, 10, 20, 25, 50, 100] ∧
      ([1, 2, 4, 5, 10, 20, 25, 50, 100] : List Int).count 10 = 1 :=
  divisors_of_100 101 (by decide)

/-- C10: for `n = 10^18`, `optimizedDivisors` computes the bound
`sqrtN = 10^9`; the run completes without an undefined operation: every counter
value `i` of the scan and its increment `i + 1`, every quotient `n / i` and
remainder `n % i` lie in the range of `long long`, and the start index
`size() - 1` of the reverse traversal is not wrapped and fits an `int`; the
returned sequence is strictly ascending, has length 361, consists exactly of the
values `2^a * 5^b` with `a, b ≤ 18` (the positive divisors of `10^18`), starts
with `1`, ends with `10^18` and contains `10^9` exactly once. -/
theorem optimizedDivisors_1e18 (fuel : Nat) (hf : 1000000000 < fuel) :
    sqrtBound 1000000000000000000 = some 1000000000 ∧
      (∀ i : Int, 1 ≤ i → i ≤ 1000000000 →
        divUndefined 1000000000000000000 i = false ∧ i + 1 ≤ LLONG_MAX ∧
        0 ≤ Int.tdiv 1000000000000000000 i ∧ Int.tdiv 1000000000000000000 i ≤ LLONG_MAX ∧
        0 ≤ Int.tmod 1000000000000000000 i ∧ Int.tmod 1000000000000000000 i ≤ LLONG_MAX) ∧
      ∃ sm lg : List Int,
        scanLoop fuel 1000000000000000000 1000000000 1 [] [] = Outcome.done (sm, lg) ∧
        startIndex lg.length = (lg.length : Int) - 1 ∧ (lg.length : Int) - 1 ≤ INT_MAX ∧
        optimizedDivisors fuel 1000000000000000000 = Outcome.done (sm ++ lg.reverse) ∧
        (sm ++ lg.reverse).Pairwise (· < ·) ∧
        (sm ++ lg.reverse).length = 361 ∧
        (∀ d : Int, d ∈ sm ++ lg.reverse ↔
          ∃ a b : Nat, a ≤ 18 ∧ b ≤ 18 ∧ d = 2 ^ a * 5 ^ b) ∧
        (∀ d : Int, d ∈ sm ++ lg.reverse ↔ 1 ≤ d ∧ (1000000000000000000 : Int) % d = 0) ∧
        (sm ++ lg.reverse).head? = some 1 ∧
        (sm ++ lg.reverse).getLast? = some 1000000000000000000 ∧
        (sm ++ lg.reverse).count 1000000000 = 1 := by
  have hmax : ((1000000000000000000 : Nat) : Int) ≤ LLONG_MAX := by decide
  have hf1 : sqrtNat (((1000000000000000000 : Nat) : Int)).toNat < fuel := by
    rw [Int.toNat_ofNat, sqrtNat_1e18]; exact hf
  obtain ⟨p1, p2, p3, p4⟩ := optimizedDivisors_parts (n := ((1000000000000000000 : Nat) : Int))
    (by decide) hmax hf1
  rw [Int.toNat_ofNat, sqrtNat_1e18] at p1 p2 p3 p4
  have hlen : (specDivisors ((1000000000000000000 : Nat) : Int)).length = 361 := by
    rw [specDivisors_length, card_divisors_1e18]
  have hmem : ∀ d : Int, d ∈ specDivisors ((1000000000000000000 : Nat) : Int) ↔
      1 ≤ d ∧ ((1000000000000000000 : Nat) : Int) % d = 0 := by
    intro d
    rw [mem_specDivisors]
    constructor
    · rintro ⟨h1, _, h3⟩; exact ⟨h1, h3⟩
    · rintro ⟨h1, h3⟩
      exact ⟨h1, Int.le_of_dvd (by decide) (Int.dvd_of_emod_eq_zero h3), h3⟩
  refine ⟨p1, ?_, smallOf _ 1 1000000000, largeOf _ 1 1000000000, p2, ?_, ?_, p3, ?_⟩
  · intro i hi1 hi2
    obtain ⟨q1, q2, q3, q4, q5⟩ := @quotient_in_range 1000000000000000000 i (by decide)
      (by decide) hi1
    exact ⟨q1, by unfold LLONG_MAX; omega, q2, q3, q4, q5⟩
  · apply startIndex_eq
    have h1 : (largeOf ((1000000000000000000 : Nat) : Int) 1 1000000000).length ≤
        (smallOf ((1000000000000000000 : Nat) : Int) 1 1000000000 ++
          (largeOf ((1000000000000000000 : Nat) : Int) 1 1000000000).reverse).length := by
      rw [List.length_append, List.length_reverse]; omega
    rw [p4, hlen] at h1
    exact le_trans h1 (by norm_num)
  · have h1 : (largeOf ((1000000000000000000 : Nat) : Int) 1 1000000000).length ≤
        (smallOf ((1000000000000000000 : Nat) : Int) 1 1000000000 ++
          (largeOf ((1000000000000000000 : Nat) : Int) 1 1000000000).reverse).length := by
      rw [List.length_append, List.length_reverse]; omega
    rw [p4, hlen] at h1
    unfold INT_MAX
    omega
  · rw [p4]
    refine ⟨specDivisors_pairwise _, hlen, ?_, hmem, specDivisors_head (by decide),
      specDivisors_getLast (by decide), ?_⟩
    · intro d
      rw [hmem]
      constructor
      · rintro ⟨h1, h3⟩
        obtain ⟨x, rfl⟩ : ∃ x : Nat, d = (x : Int) := ⟨d.toNat, by omega⟩
        obtain ⟨a, b, ha, hb, rfl⟩ := (dvd_1e18_iff x).1 (emod_natCast_eq_zero_iff.1 h3)
        exact ⟨a, b, ha, hb, by push_cast; rfl⟩
      · rintro ⟨a, b, ha, hb, rfl⟩
        have hx : (2 ^ a * 5 ^ b : Nat) ∣ 1000000000000000000 :=
          (dvd_1e18_iff _).2 ⟨a, b, ha, hb, rfl⟩
        have hpos : 0 < (2 ^ a * 5 ^ b : Nat) := by positivity
        have e : ((2 : Int) ^ a * 5 ^ b) = ((2 ^ a * 5 ^ b : Nat) : Int) := by push_cast; rfl
        rw [e]
        exact ⟨by exact_mod_cast hpos, emod_natCast_eq_zero_iff.2 hx⟩
    · apply List.count_eq_one_of_mem (specDivisors_nodup _)
      rw [hmem]
      exact ⟨by decide, by decide⟩

theorem optimizedDivisors_1e18_witness :
    sqrtBound 1000000000000000000 = some 1000000000 ∧
      (∀ i : Int, 1 ≤ i → i ≤ 1000000000 →
        divUndefined 1000000000000000000 i = false ∧ i + 1 ≤ LLONG_MAX ∧
        0 ≤ Int.tdiv 1000000000000000000 i ∧ Int.tdiv 1000000000000000000 i ≤ LLONG_MAX ∧
        0 ≤ Int.tmod 1000000000000000000 i ∧ Int.tmod 1000000000000000000 i ≤ LLONG_MAX) ∧
      ∃ sm lg : List Int,
        scanLoop 1000000001 1000000000000000000 1000000000 1 [] [] = Outcome.done (sm, lg) ∧
        startIndex lg.length = (lg.length : Int) - 1 ∧ (lg.length : Int) - 1 ≤ INT_MAX ∧
        optimizedDivisors 1000000001 1000000000000000000 = Outcome.done (sm ++ lg.reverse) ∧
        (sm ++ lg.reverse).Pairwise (· < ·) ∧
        (sm ++ lg.reverse).length = 361 ∧
        (∀ d : Int, d ∈ sm ++ lg.reverse ↔
          ∃ a b : Nat, a ≤ 18 ∧ b ≤ 18 ∧ d = 2 ^ a * 5 ^ b) ∧
        (∀ d : Int, d ∈ sm ++ lg.reverse ↔ 1 ≤ d ∧ (1000000000000000000 : Int) % d = 0) ∧
        (sm ++ lg.reverse).head? = some 1 ∧
        (sm ++ lg.reverse).getLast? = some 1000000000000000000 ∧
        (sm ++ lg.reverse).count 1000000000 = 1 :=
  optimizedDivisors_1e18 1000000001 (by decide)

/-! ## The loops with a log compute the same results -/

theorem naiveLoopLog_snd (fuel : Nat) :
    ∀ (n i : Int) (divisors log : List Int),
      (naiveLoopLog fuel n i divisors log).2.map Prod.fst = naiveLoop fuel n i divisors := by
  induction fuel with
  | zero => intro n i divisors log; rfl
  | succ f ih =>
    intro n i divisors log
    rw [naiveLoopLog, naiveLoop]
    by_cases h1 : i ≤ n
    · rw [if_pos h1, if_pos h1]
      by_cases h2 : divUndefined n i = true
      · rw [if_pos h2, if_pos h2]; rfl
      · rw [if_neg h2, if_neg h2]
        by_cases h3 : i + 1 ≤ LLONG_MAX
        · simp only [if_pos h3]; exact ih _ _ _ _
        · simp only [if_neg h3]; rfl
    · rw [if_neg h1, if_neg h1]; rfl

theorem scanLoopLog_snd (fuel : Nat) :
    ∀ (n b i : Int) (sm lg log : List Int),
      (scanLoopLog fuel n b i sm lg log).2.map Prod.fst = scanLoop fuel n b i sm lg := by
  induction fuel with
  | zero => intro n b i sm lg log; rfl
  | succ f ih =>
    intro n b i sm lg log
    rw [scanLoopLog, scanLoop]
    by_cases h1 : i ≤ b
    · rw [if_pos h1, if_pos h1]
      by_cases h2 : divUndefined n i = true
      · rw [if_pos h2, if_pos h2]; rfl
      · rw [if_neg h2, if_neg h2]
        by_cases h3 : i + 1 ≤ LLONG_MAX
        · simp only [if_pos h3]; exact ih _ _ _ _ _ _
        · simp only [if_neg h3]; rfl
    · rw [if_neg h1, if_neg h1]; rfl

theorem reverseLoopLog_snd (fuel : Nat) :
    ∀ (lg : List Int) (i : Int) (sm log : List Int),
      (reverseLoopLog fuel lg i sm log).2.map Prod.fst = reverseLoop fuel lg i sm := by
  induction fuel with
  | zero => intro lg i sm log; rfl
  | succ f ih =>
    intro lg i sm log
    rw [reverseLoopLog, reverseLoop]
    by_cases h1 : 0 ≤ i
    · rw [if_pos h1, if_pos h1]
      cases h2 : lg[i.toNat]? with
      | none => rfl
      | some v =>
        simp only
        by_cases h3 : INT_MIN ≤ i - 1
        · simp only [if_pos h3]; exact ih _ _ _ _
        · simp only [if_neg h3]; rfl
    · rw [if_neg h1, if_neg h1]; rfl

theorem startIndex_eq_sizeToInt (size : Nat) : startIndex size = sizeToInt (sizeMinusOne size) :=
  rfl

/-! ## Closed forms of the loops with a log -/

theorem naiveLoopLog_eq (n : Int) (hn : n + 1 ≤ LLONG_MAX) :
    ∀ (k : Nat) (fuel a : Nat) (divisors log : List Int), 1 ≤ a → (a : Int) + k = n + 1 →
      k < fuel →
      naiveLoopLog fuel n a divisors log =
        (log ++ candidates a k,
          Outcome.done (divisors ++ (candidates a k).filter (fun d => decide (n % d = 0)),
            n + 1)) := by
  intro k
  induction k with
  | zero =>
    intro fuel a divisors log ha hk hf
    obtain ⟨f, rfl⟩ : ∃ f, fuel = f + 1 := ⟨fuel - 1, by omega⟩
    have h : ¬ ((a : Int) ≤ n) := by omega
    have e : (a : Int) = n + 1 := by omega
    simp [naiveLoopLog, h, candidates, e]
  | succ k ih =>
    intro fuel a divisors log ha hk hf
    obtain ⟨f, rfl⟩ : ∃ f, fuel = f + 1 := ⟨fuel - 1, by omega⟩
    have h1 : (a : Int) ≤ n := by omega
    have h2 : ¬ (divUndefined n a = true) := by
      simp [divUndefined_pos (show (1 : Int) ≤ a by omega)]
    have h3 : (a : Int) + 1 ≤ LLONG_MAX := by omega
    have h4 : Int.tmod n a = 0 ↔ n % (a : Int) = 0 :=
      tmod_eq_zero_iff (by omega) (by omega)
    have ih1 := fun d1 => ih f (a + 1) d1 (log ++ [(a : Int)])
      (by omega) (by push_cast; omega) (by omega)
    push_cast at ih1
    rw [naiveLoopLog, if_pos h1, if_neg h2]
    simp only [if_pos h3]
    rw [ih1, candidates_succ, List.filter_cons]
    by_cases h5 : n % (a : Int) = 0
    · simp [h5, h4.2 h5]
    · simp [h5, mt h4.1 h5]

theorem naiveLoopLog_max :
    ∀ (k fuel a : Nat) (divisors log : List Int), 1 ≤ a → (a : Int) + k = LLONG_MAX →
      k < fuel →
      naiveLoopLog fuel LLONG_MAX a divisors log =
        (log ++ candidates a (k + 1), Outcome.undef) := by
  intro k
  induction k with
  | zero =>
    intro fuel a divisors log ha hk hf
    obtain ⟨f, rfl⟩ : ∃ f, fuel = f + 1 := ⟨fuel - 1, by omega⟩
    have h1 : (a : Int) ≤ LLONG_MAX := by omega
    have h2 : ¬ (divUndefined LLONG_MAX a = true) := by
      simp [divUndefined_pos (show (1 : Int) ≤ a by omega)]
    have h3 : ¬ ((a : Int) + 1 ≤ LLONG_MAX) := by omega
    rw [naiveLoopLog, if_pos h1, if_neg h2]
    simp only [if_neg h3]
    simp [candidates_succ, candidates_zero]
  | succ k ih =>
    intro fuel a divisors log ha hk hf
    obtain ⟨f, rfl⟩ : ∃ f, fuel = f + 1 := ⟨fuel - 1, by omega⟩
    have h1 : (a : Int) ≤ LLONG_MAX := by omega
    have h2 : ¬ (divUndefined LLONG_MAX a = true) := by
      simp [divUndefined_pos (show (1 : Int) ≤ a by omega)]
    have h3 : (a : Int) + 1 ≤ LLONG_MAX := by omega
    rw [naiveLoopLog, if_pos h1, if_neg h2]
    simp only [if_pos h3]
    have := ih f (a + 1) (if Int.tmod LLONG_MAX a = 0 then divisors ++ [(a : Int)] else divisors)
      (log ++ [(a : Int)]) (by omega) (by push_cast; push_cast at hk; omega) (by omega)
    push_cast at this
    rw [this, candidates_succ a (k + 1)]
    simp

theorem scanLoopLog_eq (n b : Int) (hn : 0 ≤ n) (hb : b + 1 ≤ LLONG_MAX) :
    ∀ (k : Nat) (fuel a : Nat) (sm lg log : List Int), 1 ≤ a → (a : Int) + k = b + 1 →
      k < fuel →
      scanLoopLog fuel n b a sm lg log =
        (log ++ candidates a k,
          Outcome.done ((sm ++ smallOf n a k, lg ++ largeOf n a k), b + 1)) := by
  intro k
  induction k with
  | zero =>
    intro fuel a sm lg log ha hk hf
    obtain ⟨f, rfl⟩ : ∃ f, fuel = f + 1 := ⟨fuel - 1, by omega⟩
    have h : ¬ ((a : Int) ≤ b) := by omega
    have e : (a : Int) = b + 1 := by omega
    simp [scanLoopLog, h, smallOf, largeOf, candidates, e]
  | succ k ih =>
    intro fuel a sm lg log ha hk hf
    obtain ⟨f, rfl⟩ : ∃ f, fuel = f + 1 := ⟨fuel - 1, by omega⟩
    have h1 : (a : Int) ≤ b := by omega
    have h2 : ¬ (divUndefined n a = true) := by
      simp [divUndefined_pos (show (1 : Int) ≤ a by omega)]
    have h3 : (a : Int) + 1 ≤ LLONG_MAX := by omega
    have h4 : Int.tmod n a = 0 ↔ n % (a : Int) = 0 := tmod_eq_zero_iff hn (by omega)
    have h6 : Int.tdiv n a = n / (a : Int) := tdiv_eq_ediv hn (by omega)
    rw [scanLoopLog, if_pos h1, if_neg h2]
    simp only [if_pos h3]
    have ih1 := fun sm1 lg1 => ih f (a + 1) sm1 lg1 (log ++ [(a : Int)])
      (by omega) (by push_cast; omega) (by omega)
    push_cast at ih1
    rw [ih1]
    simp only [smallOf, largeOf, candidates_succ, List.filter_cons, h6]
    by_cases h5 : n % (a : Int) = 0
    · by_cases h7 : (a : Int) = n / (a : Int)
      · simp [h5, h4.2 h5, ← h7]
      · simp [h5, h4.2 h5, h7]
    · simp [h5, mt h4.1 h5]

theorem descending_succ (j : Nat) : descending (j + 1) = (j : Int) :: descending j := by
  simp [descending, List.range_succ]

theorem mem_descending {j : Nat} {x : Int} : x ∈ descending j ↔ 0 ≤ x ∧ x < j := by
  simp only [descending, List.mem_map, List.mem_reverse, List.mem_range]
  constructor
  · rintro ⟨y, hy, rfl⟩
    simp only [Int.ofNat_eq_coe]
    omega
  · rintro ⟨h1, h2⟩
    refine ⟨x.toNat, by omega, ?_⟩
    simp only [Int.ofNat_eq_coe]
    omega

theorem reverseLoopLog_eq (lg : List Int) :
    ∀ (j : Nat) (fuel : Nat) (sm log : List Int), j ≤ lg.length → j < fuel →
      reverseLoopLog fuel lg ((j : Int) - 1) sm log =
        (log ++ descending j, Outcome.done (sm ++ (lg.take j).reverse, -1)) := by
  intro j
  induction j with
  | zero =>
    intro fuel sm log _ hf
    obtain ⟨f, rfl⟩ : ∃ f, fuel = f + 1 := ⟨fuel - 1, by omega⟩
    simp [reverseLoopLog, descending]
  | succ j ih =>
    intro fuel sm log hj hf
    obtain ⟨f, rfl⟩ : ∃ f, fuel = f + 1 := ⟨fuel - 1, by omega⟩
    have h1 : (0 : Int) ≤ ((j + 1 : Nat) : Int) - 1 := by push_cast; omega
    have h2 : (((j + 1 : Nat) : Int) - 1).toNat = j := by push_cast; omega
    have h3 : lg[j]? = some (lg.get ⟨j, by omega⟩) := by
      simp [List.getElem?_eq_getElem (show j < lg.length by omega)]
    have h4 : INT_MIN ≤ ((j + 1 : Nat) : Int) - 1 - 1 := by
      unfold INT_MIN; push_cast; omega
    have h5 : ((j + 1 : Nat) : Int) - 1 - 1 = (j : Int) - 1 := by push_cast; omega
    have h7 : ((j + 1 : Nat) : Int) - 1 = (j : Int) := by push_cast; omega
    rw [reverseLoopLog, if_pos h1, h2, h3]
    simp only [if_pos h4]
    rw [h5, ih f _ _ (by omega) (by omega)]
    have h6 : lg.take (j + 1) = lg.take j ++ [lg.get ⟨j, by omega⟩] := by
      rw [List.take_succ, List.getElem?_eq_getElem (show j < lg.length by omega)]
      rfl
    have h8 : log ++ [((j + 1 : Nat) : Int) - 1] ++ descending j =
        log ++ descending (j + 1) := by
      rw [descending_succ, h7]; simp
    rw [h6, List.reverse_append, h8]
    simp

/-! ## How far the computed bound can be from the integer square root -/

/-- Rounding up in the conversion to `double`. -/
theorem toDouble_round_up {N e : Nat} (he : 52 < e) (h1 : 2 ^ e ≤ N) (h2 : N < 2 ^ (e + 1))
    (hr : 2 ^ (e - 52) < 2 * (N % 2 ^ (e - 52))) :
    toDouble N = (N / 2 ^ (e - 52) + 1) * 2 ^ (e - 52) := by
  unfold toDouble
  simp only [log2_eq_of_bounds h1 h2, if_neg (show ¬ e ≤ 52 by omega)]
  rw [if_neg (by omega), if_pos hr]

/-- Evaluation of the bound from the double nearest to the argument and its
binade exponent. -/
theorem sqrtNat_eq_of_double {N d e b : Nat} (hd : toDouble N = d) (h1 : 2 ^ e ≤ d)
    (h2 : d < 2 ^ (e + 1)) (hb : 1 ≤ b)
    (hlo : b * b * 2 ^ (52 - e / 2) < d * 2 ^ (52 - e / 2) + b)
    (hhi : d * 2 ^ (52 - e / 2) + (b + 1) ≤ (b + 1) * (b + 1) * 2 ^ (52 - e / 2)) :
    sqrtNat N = b := by
  have hl : Nat.log2 d = e := log2_eq_of_bounds h1 h2
  apply le_antisymm
  · by_contra hc
    have hle : b + 1 ≤ sqrtNat N := by omega
    unfold sqrtNat at hle
    rw [le_sqrtDouble_iff _ _ (by omega), hd, hl] at hle
    omega
  · unfold sqrtNat
    rw [le_sqrtDouble_iff _ _ hb, hd, hl]
    exact hlo

theorem toDouble_1e18_pred : toDouble 999999999999999999 = 1000000000000000000 := by
  have h := @toDouble_round_up 999999999999999999 59 (by norm_num) (by norm_num) (by norm_num)
    (by norm_num)
  have e : (999999999999999999 / 2 ^ (59 - 52) + 1) * 2 ^ (59 - 52) = 1000000000000000000 := by
    norm_num
  exact h.trans e

theorem sqrtNat_1e18_pred : sqrtNat 999999999999999999 = 1000000000 :=
  sqrtNat_eq_of_double (e := 59) toDouble_1e18_pred (by norm_num) (by norm_num) (by norm_num)
    (by norm_num) (by norm_num)

/-- The computed bound exceeds the integer square root by at most one. -/
theorem sqrtNat_le_succ_sqrt {N : Nat} (hN : 1 ≤ N) (h63 : N < 2 ^ 63) :
    sqrtNat N ≤ Nat.sqrt N + 1 := by
  by_contra hc
  have hle : Nat.sqrt N + 2 ≤ sqrtNat N := by omega
  unfold sqrtNat at hle
  rw [le_sqrtDouble_iff _ _ (by omega)] at hle
  obtain ⟨c1, c2, c3, c4⟩ := toDouble_coarse hN h63
  generalize 2 ^ (52 - Nat.log2 (toDouble N) / 2) = T at hle c2
  generalize toDouble N = d at hle c1 c3 c4
  have hs2 := Nat.lt_succ_sqrt N
  simp only [Nat.succ_eq_add_one] at hs2
  generalize Nat.sqrt N = s at hle hs2
  norm_num at c2 c4
  have e1 : (s + 2) * (s + 2) = (s + 1) * (s + 1) + 2 * s + 3 := by ring
  have h3 : (N + 2 * s + 4) * T ≤ (s + 2) * (s + 2) * T := Nat.mul_le_mul_right T (by omega)
  have e3 : (N + 2 * s + 4) * T = N * T + 2 * (s * T) + 4 * T := by ring
  have h4 : s * 1 ≤ s * T := Nat.mul_le_mul_left s (by omega)
  rcases Nat.lt_or_ge N (2 ^ 53) with h53 | h53
  · rw [c3 h53] at hle
    omega
  · have hs26 : 2 ^ 26 < s + 1 := sq_lt_sq_imp (by norm_num; norm_num at h53; omega)
    norm_num at hs26
    have h5 : d * T ≤ (N + 512) * T := Nat.mul_le_mul_right T c4
    have e5 : (N + 512) * T = N * T + 512 * T := by ring
    obtain ⟨r, rfl⟩ : ∃ r, s = r + 512 := ⟨s - 512, by omega⟩
    have e6 : (r + 512) * T = r * T + 512 * T := by ring
    have h6 : r * 1 ≤ r * T := Nat.mul_le_mul_left r (by omega)
    omega

/-- C11 fails at `n = 10^18 - 1`: the conversion to `double` rounds `n` up to
`10^18`, whose root is exactly `10^9`, so `sqrtN = 10^9` although
`10^9 * 10^9 > n`; the integer square root of `n` is `10^9 - 1`. -/
theorem sqrtBound_not_root_1e18_pred :
    sqrtBound 999999999999999999 = some 1000000000 ∧
      (999999999999999999 : Int) < 1000000000 * 1000000000 ∧
      Nat.sqrt 999999999999999999 = 999999999 := by
  refine ⟨?_, by decide, (Nat.eq_sqrt.2 ⟨by norm_num, by norm_num⟩).symm⟩
  have h := @sqrtBound_pos 999999999999999999 (by decide)
  rw [h, show (999999999999999999 : Int).toNat = 999999999999999999 from rfl,
    sqrtNat_1e18_pred]
  rfl

/-- C11, amended: for every `long long` `n ≥ 1` the bound `sqrtN` of line 26 is
the integer square root of `n` or one more than it, that is
`(sqrtN - 1)^2 ≤ n < (sqrtN + 1)^2`; when it is one more (`n < sqrtN^2`),
`sqrtN` does not divide `n`. -/
theorem sqrtBound_near_root (n : Int) (h1 : 1 ≤ n) (h2 : n ≤ LLONG_MAX) :
    ∃ b : Int, sqrtBound n = some b ∧ 1 ≤ b ∧
      (b - 1) * (b - 1) ≤ n ∧ n < (b + 1) * (b + 1) ∧
      (n < b * b → ¬ (n % b = 0)) := by
  obtain ⟨N, rfl⟩ : ∃ N : Nat, n = (N : Int) := ⟨n.toNat, by omega⟩
  have hN : 1 ≤ N := by omega
  have h63 : N < 2 ^ 63 := by unfold LLONG_MAX at h2; norm_num; omega
  have hs1 := Nat.sqrt_le N
  have hs2 := Nat.lt_succ_sqrt N
  simp only [Nat.succ_eq_add_one] at hs2
  have hge : Nat.sqrt N ≤ sqrtNat N := sqrtNat_ge hN h63 hs1
  have hle := sqrtNat_le_succ_sqrt hN h63
  have hone : 1 ≤ sqrtNat N := sqrtNat_ge hN h63 (show 1 * 1 ≤ N by omega)
  refine ⟨(sqrtNat N : Nat), by simpa using sqrtBound_pos h1, by exact_mod_cast hone, ?_, ?_, ?_⟩
  · obtain ⟨c, hc⟩ : ∃ c, sqrtNat N = c + 1 := ⟨sqrtNat N - 1, by omega⟩
    rw [hc]
    push_cast
    have h3 : c * c ≤ Nat.sqrt N * Nat.sqrt N := Nat.mul_le_mul (by omega) (by omega)
    have h4 : c * c ≤ N := le_trans h3 hs1
    have : ((c : Int) + 1 - 1) * ((c : Int) + 1 - 1) = ((c * c : Nat) : Int) := by
      push_cast; ring
    rw [this]
    exact_mod_cast h4
  · have h3 : (Nat.sqrt N + 1) * (Nat.sqrt N + 1) ≤ (sqrtNat N + 1) * (sqrtNat N + 1) :=
      Nat.mul_le_mul (by omega) (by omega)
    have h4 : N < (sqrtNat N + 1) * (sqrtNat N + 1) := lt_of_lt_of_le hs2 h3
    exact_mod_cast h4
  · intro hlt hmod
    have hx : sqrtNat N ∣ N := emod_natCast_eq_zero_iff.1 hmod
    have := sqrtNat_dvd hN h63 hone (le_refl _) hx
    have hlt2 : N < sqrtNat N * sqrtNat N := by exact_mod_cast hlt
    omega

theorem sqrtBound_near_root_witness :
    ∃ b : Int, sqrtBound 999999999999999999 = some b ∧ 1 ≤ b ∧
      (b - 1) * (b - 1) ≤ 999999999999999999 ∧ 999999999999999999 < (b + 1) * (b + 1) ∧
      ((999999999999999999 : Int) < b * b → ¬ ((999999999999999999 : Int) % b = 0)) :=
  sqrtBound_near_root 999999999999999999 (by decide) (by decide)

/-! ## The logged run of `optimizedDivisors` -/

theorem sizeMinusOne_eq {size : Nat} (h1 : 1 ≤ size) (h2 : size ≤ 2 ^ 31) :
    sizeMinusOne size = size - 1 := by
  unfold sizeMinusOne
  have : size + 2 ^ 64 - 1 = (size - 1) + 2 ^ 64 := by omega
  rw [this, Nat.add_mod_right, Nat.mod_eq_of_lt (by omega)]

theorem sizeToInt_eq {u : Nat} (h : u < 2 ^ 31) : sizeToInt u = (u : Int) := by
  unfold sizeToInt
  have e : u % 2 ^ 32 = u := Nat.mod_eq_of_lt (by omega)
  simp only [e, if_pos h, Int.ofNat_eq_coe]

/-- The logged scan and reverse traversal for a bound `b` up to `3037000500`. -/
theorem logged_run {N b : Nat} (hN : 1 ≤ N) (h63 : N < 2 ^ 63) (hb : b ≤ 3037000500)
    {fuel : Nat} (hf : b < fuel) :
    scanLoopLog fuel (N : Int) (b : Int) 1 [] [] [] =
        (candidates 1 b,
          Outcome.done ((smallOf (N : Int) 1 b, largeOf (N : Int) 1 b), (b : Int) + 1)) ∧
      (largeOf (N : Int) 1 b).length ≤ 2 ^ 31 ∧
      (largeOf (N : Int) 1 b).length ≤ b ∧
      reverseLoopLog fuel (largeOf (N : Int) 1 b) (startIndex (largeOf (N : Int) 1 b).length)
          (smallOf (N : Int) 1 b) [] =
        (descending (largeOf (N : Int) 1 b).length,
          Outcome.done (smallOf (N : Int) 1 b ++ (largeOf (N : Int) 1 b).reverse, -1)) := by
  have hbl : (b : Int) + 1 ≤ LLONG_MAX := by unfold LLONG_MAX; omega
  have hlen : (largeOf (N : Int) 1 b).length ≤ 2 ^ 31 :=
    le_trans (largeOf_length_le _ _ _) (smallOf_length_bound hN h63 hb)
  have hlen2 : (largeOf (N : Int) 1 b).length ≤ b :=
    le_trans (largeOf_length_le _ _ _) (smallOf_length_le _ _ _)
  refine ⟨?_, hlen, hlen2, ?_⟩
  · have := scanLoopLog_eq (N : Int) (b : Int) (by omega) hbl b fuel 1 [] [] [] (le_refl 1)
      (by omega) hf
    simpa using this
  · rw [startIndex_eq hlen]
    have := reverseLoopLog_eq (largeOf (N : Int) 1 b) (largeOf (N : Int) 1 b).length fuel
      (smallOf (N : Int) 1 b) [] (le_refl _) (by omega)
    simpa using this

theorem largeOf_ne_nil {N b : Nat} (hN : 2 ≤ N) (hb : 1 ≤ b) :
    1 ≤ (largeOf (N : Int) 1 b).length := by
  have hmem : (N : Int) ∈ largeOf (N : Int) 1 b := by
    rw [mem_largeOf]
    refine ⟨1, ⟨⟨by simp, by push_cast; omega⟩, by simp, ?_⟩, by simp⟩
    simp only [Int.ediv_one]
    omega
  exact List.length_pos_of_mem hmem

/-- C12 fails at `n = 1`: the scan leaves `largeDivisors` empty, the exact value of
`size() - 1` is `-1`, outside the range of `size_t`, and the computed value is
`2^64 - 1` (wrapped modulo `2^64`); that value exceeds `INT_MAX` and its
conversion to `int` gives `-1` (reduction modulo `2^32`). -/
theorem size_minus_one_wraps_at_one :
    sqrtBound 1 = some 1 ∧
      scanLoop 2 1 1 1 [] [] = Outcome.done ([1], []) ∧
      (([] : List Int).length : Int) - 1 < 0 ∧
      sizeMinusOne ([] : List Int).length = 18446744073709551615 ∧
      INT_MAX < ((sizeMinusOne ([] : List Int).length : Nat) : Int) ∧
      sizeToInt (sizeMinusOne ([] : List Int).length) = -1 := by
  refine ⟨?_, by decide, by decide, by decide, by decide, by decide⟩
  have h := @sqrtBound_pos 1 (by decide)
  rw [h, show (1 : Int).toNat = 1 from rfl, sqrtNat_one]
  rfl

/-- C12, amended: for every `long long` `n ≥ 1` every signed value computed by
`optimizedDivisors` lies in the range of its type: each counter value `i` of the
scan and its increment `i + 1`, up to the final `sqrtN + 1`; each quotient
`n / i` and remainder `n % i`; the `int` start index `size() - 1`, every index
of the reverse traversal and its decrement, down to the final `-1`.  For
`n ≥ 2` the unsigned subtraction `size() - 1` and its conversion to `int` do not
wrap either. -/
theorem optimizedDivisors_values_in_range (n : Int) (h1 : 1 ≤ n) (h2 : n ≤ LLONG_MAX)
    (fuel : Nat) (hf : sqrtNat n.toNat < fuel) :
    ∃ (sqrtN : Int) (log sm lg rlog out : List Int),
      sqrtBound n = some sqrtN ∧
      scanLoopLog fuel n sqrtN 1 [] [] [] = (log, Outcome.done ((sm, lg), sqrtN + 1)) ∧
      sqrtN + 1 ≤ LLONG_MAX ∧
      (∀ i ∈ log, 1 ≤ i ∧ i ≤ LLONG_MAX ∧ i + 1 ≤ LLONG_MAX ∧
        divUndefined n i = false ∧ 0 ≤ Int.tdiv n i ∧ Int.tdiv n i ≤ LLONG_MAX ∧
        0 ≤ Int.tmod n i ∧ Int.tmod n i ≤ LLONG_MAX) ∧
      startIndex lg.length = (lg.length : Int) - 1 ∧
      INT_MIN ≤ (lg.length : Int) - 1 ∧ (lg.length : Int) - 1 ≤ INT_MAX ∧
      reverseLoopLog fuel lg (startIndex lg.length) sm [] = (rlog, Outcome.done (out, -1)) ∧
      (∀ j ∈ rlog, 0 ≤ j ∧ j ≤ INT_MAX ∧ INT_MIN ≤ j - 1) ∧
      optimizedDivisors fuel n = Outcome.done out ∧
      (2 ≤ n → ((sizeMinusOne lg.length : Nat) : Int) = (lg.length : Int) - 1 ∧
        sizeToInt (sizeMinusOne lg.length) = ((sizeMinusOne lg.length : Nat) : Int)) := by
  obtain ⟨p1, _, p3, _⟩ := optimizedDivisors_parts h1 h2 hf
  obtain ⟨N, rfl⟩ : ∃ N : Nat, n = (N : Int) := ⟨n.toNat, by omega⟩
  have hN : 1 ≤ N := by omega
  have h63 : N < 2 ^ 63 := by unfold LLONG_MAX at h2; norm_num; omega
  simp only [Int.toNat_ofNat] at hf p1 p3
  have hb := sqrtNat_le hN h63
  have hone : 1 ≤ sqrtNat N := sqrtNat_ge hN h63 (show 1 * 1 ≤ N by omega)
  obtain ⟨q1, q2, q3, q4⟩ := logged_run hN h63 hb hf
  refine ⟨_, _, _, _, _, _, p1, q1, by unfold LLONG_MAX; omega, ?_, startIndex_eq q2,
    by unfold INT_MIN; omega, by unfold INT_MAX; omega, q4, ?_, p3, ?_⟩
  · intro i hi
    obtain ⟨hi1, hi2⟩ := mem_candidates.1 hi
    push_cast at hi1 hi2
    obtain ⟨r1, r2, r3, r4, r5⟩ := quotient_in_range (show (0 : Int) ≤ (N : Int) by omega) h2 hi1
    exact ⟨hi1, by unfold LLONG_MAX; omega, by unfold LLONG_MAX; omega, r1, r2, r3, r4, r5⟩
  · intro j hj
    obtain ⟨hj1, hj2⟩ := mem_descending.1 hj
    exact ⟨hj1, by unfold INT_MAX; omega, by unfold INT_MIN; omega⟩
  · intro hn2
    have hl1 := largeOf_ne_nil (show 2 ≤ N by omega) hone
    rw [sizeMinusOne_eq hl1 q2, sizeToInt_eq (by omega)]
    exact ⟨by omega, rfl⟩

theorem optimizedDivisors_values_in_range_witness :
    ∃ (sqrtN : Int) (log sm lg rlog out : List Int),
      sqrtBound 28 = some sqrtN ∧
      scanLoopLog 6 28 sqrtN 1 [] [] [] = (log, Outcome.done ((sm, lg), sqrtN + 1)) ∧
      sqrtN + 1 ≤ LLONG_MAX ∧
      (∀ i ∈ log, 1 ≤ i ∧ i ≤ LLONG_MAX ∧ i + 1 ≤ LLONG_MAX ∧
        divUndefined 28 i = false ∧ 0 ≤ Int.tdiv 28 i ∧ Int.tdiv 28 i ≤ LLONG_MAX ∧
        0 ≤ Int.tmod 28 i ∧ Int.tmod 28 i ≤ LLONG_MAX) ∧
      startIndex lg.length = (lg.length : Int) - 1 ∧
      INT_MIN ≤ (lg.length : Int) - 1 ∧ (lg.length : Int) - 1 ≤ INT_MAX ∧
      reverseLoopLog 6 lg (startIndex lg.length) sm [] = (rlog, Outcome.done (out, -1)) ∧
      (∀ j ∈ rlog, 0 ≤ j ∧ j ≤ INT_MAX ∧ INT_MIN ≤ j - 1) ∧
      optimizedDivisors 6 28 = Outcome.done out ∧
      ((2 : Int) ≤ 28 → ((sizeMinusOne lg.length : Nat) : Int) = (lg.length : Int) - 1 ∧
        sizeToInt (sizeMinusOne lg.length) = ((sizeMinusOne lg.length : Nat) : Int)) :=
  optimizedDivisors_values_in_range 28 (by decide) (by decide) 6
    (by rw [show (28 : Int).toNat = 28 from rfl, sqrtNat_28]; decide)

/-! ## The logged run of `naiveDivisors` -/

theorem candidates_length (a k : Nat) : (candidates a k).length = k := by
  simp [candidates]

/-- For a positive `n` below `LLONG_MAX` the naive loop performs exactly `n`
iterations, for `i = 1, ..., n`, leaves the loop with `i = n + 1` and returns the
specification's sequence. -/
theorem naiveDivisorsLog_eq {n : Int} (h1 : 1 ≤ n) (h2 : n < LLONG_MAX) {fuel : Nat}
    (hf : n.toNat < fuel) :
    naiveDivisorsLog fuel n =
      (candidates 1 n.toNat, Outcome.done (specDivisors n, n + 1)) := by
  have := naiveLoopLog_eq n (by omega) n.toNat fuel 1 [] [] (le_refl 1) (by omega) hf
  simpa [naiveDivisorsLog, specDivisors, candidates] using this

/-- At `n = LLONG_MAX` the naive loop evaluates its test for `i = 1, ..., n` and
stops at the overflow of the last `i++`. -/
theorem naiveDivisorsLog_max {fuel : Nat} (hf : 9223372036854775807 ≤ fuel) :
    naiveDivisorsLog fuel LLONG_MAX =
      (candidates 1 9223372036854775807, Outcome.undef) := by
  have := naiveLoopLog_max 9223372036854775806 fuel 1 [] [] (le_refl 1)
    (by unfold LLONG_MAX; norm_num) (by omega)
  simpa [naiveDivisorsLog] using this

/-- C13, at the input `n = LLONG_MAX = 2^63 - 1`: the loop of `naiveDivisors` does
not terminate after `n` iterations.  After the iterations for
`i = 1, ..., 2^63 - 1` the increment `i++` is executed with `i = 2^63 - 1`; its
value `2^63` exceeds `LLONG_MAX`, the run has no defined continuation and no
sequence is returned. -/
theorem naive_counter_overflows_at_max :
    naiveDivisorsLog 9223372036854775807 LLONG_MAX =
        (candidates 1 9223372036854775807, Outcome.undef) ∧
      (candidates 1 9223372036854775807).length = 9223372036854775807 ∧
      naiveLoopLog 1 LLONG_MAX LLONG_MAX [] [] = ([LLONG_MAX], Outcome.undef) ∧
      LLONG_MAX < LLONG_MAX + 1 ∧
      (∀ fuel : Nat, (naiveDivisorsLog fuel LLONG_MAX).2 = Outcome.undef ∨
        (naiveDivisorsLog fuel LLONG_MAX).2 = Outcome.timeout) := by
  refine ⟨naiveDivisorsLog_max (le_refl _), candidates_length _ _, by decide, by decide, ?_⟩
  intro fuel
  have h := naiveLoop_max fuel 1 [] (by decide)
  have e := naiveLoopLog_snd fuel LLONG_MAX 1 [] []
  unfold naiveDivisorsLog
  rw [← e] at h
  cases hq : (naiveLoopLog fuel LLONG_MAX 1 [] []).2 with
  | done a => rw [hq] at h; simp [Outcome.map] at h
  | undef => exact Or.inl rfl
  | timeout => exact Or.inr rfl

/-- C14: for every `n ≤ 0`, `naiveDivisors(n)` performs no loop iteration (the
first test `1 <= n` fails), evaluates no remainder, leaves the counter at `1`
and returns the empty sequence. -/
theorem naiveDivisors_nonpositive (n : Int) (hn : n ≤ 0) (fuel : Nat) (hf : 1 ≤ fuel) :
    naiveDivisorsLog fuel n = ([], Outcome.done ([], 1)) ∧
      naiveDivisors fuel n = Outcome.done [] := by
  obtain ⟨f, rfl⟩ : ∃ f, fuel = f + 1 := ⟨fuel - 1, by omega⟩
  have h : ¬ ((1 : Int) ≤ n) := by omega
  constructor
  · simp [naiveDivisorsLog, naiveLoopLog, h]
  · simp [naiveDivisors, naiveLoop, h]

theorem naiveDivisors_nonpositive_witness :
    naiveDivisorsLog 1 LLONG_MIN = ([], Outcome.done ([], 1)) ∧
      naiveDivisors 1 LLONG_MIN = Outcome.done [] :=
  naiveDivisors_nonpositive LLONG_MIN (by decide) 1 (by decide)

/-! ## The body of `optimizedDivisors` with a bound next to the square root -/

theorem optimizedBody_run {N b : Nat} (hN : 1 ≤ N) (h63 : N < 2 ^ 63) (hb : b ≤ 3037000500)
    {fuel : Nat} (hf : b < fuel) :
    optimizedBody fuel (N : Int) (b : Int) =
      Outcome.done (smallOf (N : Int) 1 b ++ (largeOf (N : Int) 1 b).reverse) := by
  have hlen : (largeOf (N : Int) 1 ((b : Int)).toNat).length ≤ 2 ^ 31 := by
    simp only [Int.toNat_ofNat]
    exact le_trans (largeOf_length_le _ _ _) (smallOf_length_bound hN h63 hb)
  have := @optimizedBody_eq (N : Int) (b : Int) (by omega) (by omega)
    (by unfold LLONG_MAX; omega) hlen fuel (by simpa using hf)
  simpa using this

theorem sqrt_le_bound {N : Nat} (h63 : N < 2 ^ 63) : Nat.sqrt N ≤ 3037000499 := by
  have h1 := Nat.sqrt_le N
  have h2 : Nat.sqrt N < 3037000500 := sq_lt_sq_imp (by norm_num; norm_num at h63; omega)
  omega

theorem largeOf_nodup {n : Int} (hn : 1 ≤ n) (k : Nat) : (largeOf n 1 k).Nodup :=
  (largeOf_pairwise hn (le_refl 1) k).imp (fun h => (ne_of_lt h).symm)

theorem smallOf_nodup (n : Int) (a k : Nat) : (smallOf n a k).Nodup :=
  (smallOf_pairwise n a k).imp (fun h => ne_of_lt h)

/-- A bound one below the root `s`, when `s` divides `n`: `s` and `n / s` are
missing from the output. -/
theorem body_bound_below {n s : Int} (hs0 : 1 ≤ s) (hs1 : s * s ≤ n) (hdvd : n % s = 0)
    {b : Nat} (hb : (b : Int) = s - 1) :
    s ∉ smallOf n 1 b ++ (largeOf n 1 b).reverse ∧
      n / s ∉ smallOf n 1 b ++ (largeOf n 1 b).reverse := by
  have e := mul_ediv_of_emod hdvd
  have hq : 1 ≤ n / s := by
    by_contra h0
    have : s * (n / s) ≤ 0 := by nlinarith
    nlinarith
  constructor
  · intro h
    rw [List.mem_append, List.mem_reverse, mem_smallOf, mem_largeOf] at h
    rcases h with ⟨⟨h1, h2⟩, _⟩ | ⟨j, ⟨⟨hj1, hj2⟩, hj3, hj4⟩, hj5⟩
    · push_cast at h1 h2; omega
    · push_cast at hj1 hj2
      have ej := mul_ediv_of_emod hj3
      rw [hj5] at ej
      nlinarith
  · intro h
    rw [List.mem_append, List.mem_reverse, mem_smallOf, mem_largeOf] at h
    rcases h with ⟨⟨h1, h2⟩, _⟩ | ⟨j, ⟨⟨hj1, hj2⟩, hj3, hj4⟩, hj5⟩
    · push_cast at h1 h2
      have : n / s < s := by omega
      nlinarith
    · push_cast at hj1 hj2
      have ej := mul_ediv_of_emod hj3
      rw [hj5] at ej
      have : j < s := by omega
      nlinarith

/-- A bound one above the root `s`, when `s + 1` divides `n`: `s + 1` and
`n / (s + 1)` are listed twice. -/
theorem body_bound_above {n s : Int} (hn : 1 ≤ n) (hs0 : 1 ≤ s) (hs2 : n < (s + 1) * (s + 1))
    (hdvd : n % (s + 1) = 0) {b : Nat} (hb : (b : Int) = s + 1) :
    (smallOf n 1 b ++ (largeOf n 1 b).reverse).count (s + 1) = 2 ∧
      (smallOf n 1 b ++ (largeOf n 1 b).reverse).count (n / (s + 1)) = 2 := by
  have e := mul_ediv_of_emod hdvd
  have hq : 1 ≤ n / (s + 1) := by
    by_contra h0
    have : (s + 1) * (n / (s + 1)) ≤ 0 := by nlinarith
    nlinarith
  have hqs : n / (s + 1) ≤ s := by
    by_contra h0
    have : s + 1 ≤ n / (s + 1) := by omega
    nlinarith
  have hqd : (n / (s + 1)) ∣ n := Dvd.intro_left (s + 1) e
  have hqm : n % (n / (s + 1)) = 0 := Int.emod_eq_zero_of_dvd hqd
  have e2 : n / (n / (s + 1)) = s + 1 := by
    apply Int.ediv_eq_of_eq_mul_right (by omega)
    rw [mul_comm]; exact e.symm
  have m1 : s + 1 ∈ smallOf n 1 b :=
    mem_smallOf.2 ⟨⟨by push_cast; omega, by push_cast; omega⟩, hdvd⟩
  have m2 : s + 1 ∈ largeOf n 1 b :=
    mem_largeOf.2 ⟨n / (s + 1), ⟨⟨by push_cast; omega, by push_cast; omega⟩, hqm,
      by rw [e2]; omega⟩, e2⟩
  have m3 : n / (s + 1) ∈ smallOf n 1 b :=
    mem_smallOf.2 ⟨⟨by push_cast; omega, by push_cast; omega⟩, hqm⟩
  have m4 : n / (s + 1) ∈ largeOf n 1 b :=
    mem_largeOf.2 ⟨s + 1, ⟨⟨by push_cast; omega, by push_cast; omega⟩, hdvd, by omega⟩, rfl⟩
  constructor
  · rw [List.count_append, List.count_reverse,
      List.count_eq_one_of_mem (smallOf_nodup n 1 b) m1,
      List.count_eq_one_of_mem (largeOf_nodup hn b) m2]
  · rw [List.count_append, List.count_reverse,
      List.count_eq_one_of_mem (smallOf_nodup n 1 b) m3,
      List.count_eq_one_of_mem (largeOf_nodup hn b) m4]

/-- A bound `b` between the root `s` and `s + 1` that is not a divisor of `n`
unless it is `s`: the output is the specification's sequence. -/
theorem body_bound_harmless {n s : Int} (hn : 1 ≤ n) (hs1 : s * s ≤ n)
    (hs2 : n < (s + 1) * (s + 1)) {b : Nat} (hb : (b : Int) = s ∨ ((b : Int) = s + 1 ∧
      ¬ (n % (s + 1) = 0))) :
    smallOf n 1 b ++ (largeOf n 1 b).reverse = specDivisors n := by
  have hs0 : 0 ≤ s := by
    rcases hb with h | ⟨h, _⟩
    · omega
    · by_contra hc
      have e : s = -1 := by omega
      rw [e] at hs2
      norm_num at hs2
      omega
  apply small_append_large_eq hn
  · intro d hd1 hdd
    have : d ≤ s := by
      by_contra hc
      have : s + 1 ≤ d := by omega
      nlinarith
    rcases hb with h | ⟨h, _⟩ <;> omega
  · intro d hd1 hdb hmod
    have : d ≤ s := by
      rcases hb with h | ⟨h, h'⟩
      · omega
      · by_contra hc
        have hd : d = s + 1 := by omega
        rw [hd] at hmod
        exact h' hmod
    nlinarith

/-- C15: the body of `optimizedDivisors` (lines 28-40) as a function of `n` and a
loop bound, with `s` the integer square root of `n` (`s^2 ≤ n < (s + 1)^2`).
With the bound `s - 1`, when `s` divides `n`, the divisors `s` and `n / s` are
missing from the output.  With the bound `s + 1`, when `s + 1` divides `n`, the
output lists `s + 1` and `n / (s + 1)` twice; for `n = 6` and the bound `3` it is
`[1, 2, 3, 2, 3, 6]`.  With the bound `s + 1`, when `s + 1` does not divide `n`,
the output is the one for the bound `s`. -/
theorem optimizedBody_off_by_one (n s : Int) (h1 : 1 ≤ n) (h2 : n ≤ LLONG_MAX) (hs0 : 0 ≤ s)
    (hs1 : s * s ≤ n) (hs2 : n < (s + 1) * (s + 1)) (fuel : Nat) (hf : s + 1 < (fuel : Int)) :
    (n % s = 0 →
      ∃ l : List Int, optimizedBody fuel n (s - 1) = Outcome.done l ∧
        s ∈ specDivisors n ∧ s ∉ l ∧ n / s ∈ specDivisors n ∧ n / s ∉ l) ∧
    (n % (s + 1) = 0 →
      ∃ l : List Int, optimizedBody fuel n (s + 1) = Outcome.done l ∧
        l.count (s + 1) = 2 ∧ l.count (n / (s + 1)) = 2) ∧
    (¬ (n % (s + 1) = 0) →
      optimizedBody fuel n (s + 1) = optimizedBody fuel n s ∧
        optimizedBody fuel n s = Outcome.done (specDivisors n)) ∧
    optimizedBody 4 6 3 = Outcome.done [1, 2, 3, 2, 3, 6] := by
  obtain ⟨N, rfl⟩ : ∃ N : Nat, n = (N : Int) := ⟨n.toNat, by omega⟩
  obtain ⟨S, rfl⟩ : ∃ S : Nat, s = (S : Int) := ⟨s.toNat, by omega⟩
  have hN : 1 ≤ N := by omega
  have h63 : N < 2 ^ 63 := by unfold LLONG_MAX at h2; norm_num; omega
  have hS1 : 1 ≤ S := by
    by_contra hc
    have e : S = 0 := by omega
    rw [e] at hs2
    norm_num at hs2
    omega
  have hS : S ≤ 3037000499 := by
    by_contra hc
    have h3 : (3037000500 : Int) ≤ (S : Int) := by omega
    have h4 : (N : Int) < 9223372036854775808 := by exact_mod_cast h63
    nlinarith
  have hfn : S + 1 < fuel := by exact_mod_cast hf
  refine ⟨?_, ?_, ?_, by decide⟩
  · intro hdvd
    have hb : ((S - 1 : Nat) : Int) = (S : Int) - 1 := by omega
    have hrun := @optimizedBody_run N (S - 1) hN h63 (by omega) fuel (by omega)
    rw [hb] at hrun
    obtain ⟨m1, m2⟩ := body_bound_below (show (1 : Int) ≤ (S : Int) by omega) hs1 hdvd hb
    have e := mul_ediv_of_emod hdvd
    have hq : 1 ≤ (N : Int) / (S : Int) := by
      by_contra h0
      have : (S : Int) * ((N : Int) / (S : Int)) ≤ 0 := by nlinarith
      omega
    have hqd : ((N : Int) / (S : Int)) ∣ (N : Int) := Dvd.intro_left _ e
    refine ⟨_, hrun, ?_, m1, ?_, m2⟩
    · exact mem_specDivisors.2 ⟨by omega, by nlinarith, hdvd⟩
    · exact mem_specDivisors.2 ⟨hq, Int.le_of_dvd (by omega) hqd, Int.emod_eq_zero_of_dvd hqd⟩
  · intro hdvd
    have hb : ((S + 1 : Nat) : Int) = (S : Int) + 1 := by push_cast; rfl
    have hrun := @optimizedBody_run N (S + 1) hN h63 (by omega) fuel (by omega)
    rw [hb] at hrun
    obtain ⟨c1, c2⟩ := body_bound_above h1 (show (1 : Int) ≤ (S : Int) by omega) hs2 hdvd hb
    exact ⟨_, hrun, c1, c2⟩
  · intro hnd
    have hb : ((S + 1 : Nat) : Int) = (S : Int) + 1 := by push_cast; rfl
    have hrun1 := @optimizedBody_run N (S + 1) hN h63 (by omega) fuel (by omega)
    have hrun0 := @optimizedBody_run N S hN h63 (by omega) fuel (by omega)
    rw [hb] at hrun1
    rw [body_bound_harmless h1 hs1 hs2 (Or.inr ⟨hb, hnd⟩)] at hrun1
    rw [body_bound_harmless h1 hs1 hs2 (Or.inl rfl)] at hrun0
    exact ⟨by rw [hrun1, hrun0], hrun0⟩

theorem optimizedBody_off_by_one_witness :
    ((6 : Int) % 2 = 0 →
      ∃ l : List Int, optimizedBody 4 6 (2 - 1) = Outcome.done l ∧
        2 ∈ specDivisors 6 ∧ 2 ∉ l ∧ 6 / 2 ∈ specDivisors 6 ∧ 6 / 2 ∉ l) ∧
    ((6 : Int) % (2 + 1) = 0 →
      ∃ l : List Int, optimizedBody 4 6 (2 + 1) = Outcome.done l ∧
        l.count (2 + 1) = 2 ∧ l.count (6 / (2 + 1)) = 2) ∧
    (¬ ((6 : Int) % (2 + 1) = 0) →
      optimizedBody 4 6 (2 + 1) = optimizedBody 4 6 2 ∧
        optimizedBody 4 6 2 = Outcome.done (specDivisors 6)) ∧
    optimizedBody 4 6 3 = Outcome.done [1, 2, 3, 2, 3, 6] :=
  optimizedBody_off_by_one 6 2 (by decide) (by decide) (by decide) (by decide) (by decide) 4
    (by decide)

theorem eq_sqrt_of_bounds {N S : Nat} (hs1 : ((S : Int)) * (S : Int) ≤ (N : Int))
    (hs2 : (N : Int) < ((S : Int) + 1) * ((S : Int) + 1)) : S = Nat.sqrt N := by
  apply Nat.eq_sqrt.2
  constructor
  · exact_mod_cast hs1
  · exact_mod_cast hs2

/-- C16: for every `long long` `n ≥ 1` with integer square root `s`
(`s^2 ≤ n < (s + 1)^2`), when the scan loop of `optimizedDivisors` ends,
`smallDivisors` is strictly ascending with every element at most `s`, and
`largeDivisors` is strictly descending with every element a divisor of `n`
greater than `s`, hence greater than every element of `smallDivisors`. -/
theorem scan_final_state (n s : Int) (h1 : 1 ≤ n) (h2 : n ≤ LLONG_MAX) (hs0 : 0 ≤ s)
    (hs1 : s * s ≤ n) (hs2 : n < (s + 1) * (s + 1)) (fuel : Nat)
    (hf : sqrtNat n.toNat < fuel) :
    ∃ (sqrtN : Int) (sm lg : List Int), sqrtBound n = some sqrtN ∧
      scanLoop fuel n sqrtN 1 [] [] = Outcome.done (sm, lg) ∧
      sm.Pairwise (· < ·) ∧
      (∀ x ∈ sm, x ≤ s) ∧
      lg.Pairwise (fun a b => b < a) ∧
      (∀ y ∈ lg, n % y = 0 ∧ s < y) ∧
      (∀ x ∈ sm, ∀ y ∈ lg, x < y) := by
  obtain ⟨p1, p2, _, _⟩ := optimizedDivisors_parts h1 h2 hf
  obtain ⟨N, rfl⟩ : ∃ N : Nat, n = (N : Int) := ⟨n.toNat, by omega⟩
  obtain ⟨S, rfl⟩ : ∃ S : Nat, s = (S : Int) := ⟨s.toNat, by omega⟩
  have hN : 1 ≤ N := by omega
  have h63 : N < 2 ^ 63 := by unfold LLONG_MAX at h2; norm_num; omega
  simp only [Int.toNat_ofNat] at hf p1 p2 ⊢
  have hS : S = Nat.sqrt N := eq_sqrt_of_bounds hs1 hs2
  have hsm : ∀ x ∈ smallOf (N : Int) 1 (sqrtNat N), x ≤ (S : Int) := by
    intro x hx
    obtain ⟨⟨hx1, hx2⟩, hx3⟩ := mem_smallOf.1 hx
    push_cast at hx1 hx2
    obtain ⟨X, rfl⟩ : ∃ X : Nat, x = (X : Int) := ⟨x.toNat, by omega⟩
    have hd := sqrtNat_dvd hN h63 (show 1 ≤ X by omega) (by omega)
      (emod_natCast_eq_zero_iff.1 hx3)
    rw [hS]
    exact_mod_cast Nat.le_sqrt.2 hd
  have hlg : ∀ y ∈ largeOf (N : Int) 1 (sqrtNat N), (N : Int) % y = 0 ∧ (S : Int) < y := by
    intro y hy
    obtain ⟨j, ⟨⟨hj1, hj2⟩, hj3, hj4⟩, hj5⟩ := mem_largeOf.1 hy
    push_cast at hj1 hj2
    obtain ⟨J, rfl⟩ : ∃ J : Nat, j = (J : Int) := ⟨j.toNat, by omega⟩
    have hd := sqrtNat_dvd hN h63 (show 1 ≤ J by omega) (by omega)
      (emod_natCast_eq_zero_iff.1 hj3)
    have hd2 : (J : Int) * (J : Int) ≤ (N : Int) := by exact_mod_cast hd
    have e := mul_ediv_of_emod hj3
    rw [hj5] at e hj4
    have hyd : y ∣ (N : Int) := Dvd.intro_left _ e
    refine ⟨Int.emod_eq_zero_of_dvd hyd, ?_⟩
    by_contra hc
    have hc1 : y ≤ (S : Int) := not_lt.1 hc
    have hy0 : 0 < y := by
      by_contra h0
      have : (J : Int) * y ≤ 0 := by nlinarith
      omega
    have hyy : y * y ≤ (N : Int) := by nlinarith
    have hyj : y ≤ (J : Int) := by
      by_contra h
      have : (J : Int) < y := by omega
      nlinarith
    have hjy : (J : Int) ≤ y := by
      by_contra h
      have : y < (J : Int) := by omega
      nlinarith
    omega
  refine ⟨_, _, _, p1, p2, smallOf_pairwise _ _ _, hsm, largeOf_pairwise h1 (le_refl 1) _,
    hlg, ?_⟩
  intro x hx y hy
  have := hsm x hx
  have := (hlg y hy).2
  omega

theorem scan_final_state_witness :
    ∃ (sqrtN : Int) (sm lg : List Int), sqrtBound 100 = some sqrtN ∧
      scanLoop 11 100 sqrtN 1 [] [] = Outcome.done (sm, lg) ∧
      sm.Pairwise (· < ·) ∧
      (∀ x ∈ sm, x ≤ 10) ∧
      lg.Pairwise (fun a b => b < a) ∧
      (∀ y ∈ lg, (100 : Int) % y = 0 ∧ 10 < y) ∧
      (∀ x ∈ sm, ∀ y ∈ lg, x < y) :=
  scan_final_state 100 10 (by decide) (by decide) (by decide) (by decide) (by decide) 11
    (by rw [show (100 : Int).toNat = 100 from rfl, sqrtNat_100]; decide)

/-- For a positive `n` below `LLONG_MAX` and the exact integer square root `s` of
`n` (`s^2 ≤ n < (s + 1)^2`): the scan of `optimizedDivisors` with the bound `s`
evaluates the test `n % i == 0` exactly `s` times (for `i = 1, ..., s`) and the
body yields the specification's sequence; `naiveDivisors` evaluates the test
exactly `n` times (for `i = 1, ..., n`) and then returns; the first count never
exceeds the second. -/
theorem test_counts_below_max (n s : Int) (h1 : 1 ≤ n) (h2 : n < LLONG_MAX) (hs0 : 0 ≤ s)
    (hs1 : s * s ≤ n) (hs2 : n < (s + 1) * (s + 1)) (fuel : Nat) (hf : n < (fuel : Int)) :
    naiveDivisorsLog fuel n = (candidates 1 n.toNat, Outcome.done (specDivisors n, n + 1)) ∧
      ((naiveDivisorsLog fuel n).1.length : Int) = n ∧
      (scanLoopLog fuel n s 1 [] [] []).1 = candidates 1 s.toNat ∧
      ((scanLoopLog fuel n s 1 [] [] []).1.length : Int) = s ∧
      optimizedBody fuel n s = Outcome.done (specDivisors n) ∧
      (scanLoopLog fuel n s 1 [] [] []).1.length ≤ (naiveDivisorsLog fuel n).1.length := by
  have hfn : n.toNat < fuel := by omega
  have hnaive := naiveDivisorsLog_eq h1 h2 hfn
  obtain ⟨N, rfl⟩ : ∃ N : Nat, n = (N : Int) := ⟨n.toNat, by omega⟩
  obtain ⟨S, rfl⟩ : ∃ S : Nat, s = (S : Int) := ⟨s.toNat, by omega⟩
  have hN : 1 ≤ N := by omega
  have h63 : N < 2 ^ 63 := by unfold LLONG_MAX at h2; norm_num; omega
  simp only [Int.toNat_ofNat] at hfn hnaive ⊢
  have hS : S = Nat.sqrt N := eq_sqrt_of_bounds hs1 hs2
  have hs := sqrt_le_bound h63
  have hsle := Nat.sqrt_le_self N
  rw [← hS] at hs hsle
  obtain ⟨q1, _, _, _⟩ := @logged_run N S hN h63 (by omega) fuel (by omega)
  have hbody := @optimizedBody_run N S hN h63 (by omega) fuel (by omega)
  rw [body_bound_harmless h1 hs1 hs2 (Or.inl rfl)] at hbody
  rw [q1, hnaive]
  simp only [candidates_length]
  exact ⟨trivial, trivial, trivial, trivial, hbody, hsle⟩

/-- At `n = LLONG_MAX`, while the budget lasts, the naive loop is still running
after every test: `fuel` tests for a budget `fuel` below `2^63 - 1`. -/
theorem naiveLoopLog_max_timeout (fuel : Nat) :
    ∀ (a : Nat) (divisors log : List Int), 1 ≤ a → (a : Int) + fuel ≤ LLONG_MAX →
      naiveLoopLog fuel LLONG_MAX a divisors log =
        (log ++ candidates a fuel, Outcome.timeout) := by
  induction fuel with
  | zero => intro a divisors log _ _; simp [naiveLoopLog, candidates]
  | succ f ih =>
    intro a divisors log ha hle
    have h1 : (a : Int) ≤ LLONG_MAX := by omega
    have h2 : ¬ (divUndefined LLONG_MAX a = true) := by
      simp [divUndefined_pos (show (1 : Int) ≤ a by omega)]
    have h3 : (a : Int) + 1 ≤ LLONG_MAX := by omega
    rw [naiveLoopLog, if_pos h1, if_neg h2]
    simp only [if_pos h3]
    have := ih (a + 1) (if Int.tmod LLONG_MAX a = 0 then divisors ++ [(a : Int)] else divisors)
      (log ++ [(a : Int)]) (by omega) (by push_cast; push_cast at hle; omega)
    push_cast at this
    rw [this, candidates_succ a f]
    simp

/-- C17, at the input `n = LLONG_MAX = 2^63 - 1`: `naiveDivisors` has no run in
which the test `n % i == 0` is evaluated exactly `n` times and the loop is then
left.  With a budget below `n` the loop is still running after every test; with
a larger budget the test is evaluated for `i = 1, ..., n` and the loop then
executes `i++` with `i = LLONG_MAX`, an overflow after which the run has no
defined continuation (the exit test `i <= n` cannot fail).  The scan of
`optimizedDivisors` with the exact root `3037000499` evaluates its test
`3037000499` times and is left with `i = 3037000500`. -/
theorem naive_test_count_at_max :
    (∀ fuel : Nat, naiveDivisorsLog fuel LLONG_MAX =
        if fuel < 9223372036854775807 then (candidates 1 fuel, Outcome.timeout)
        else (candidates 1 9223372036854775807, Outcome.undef)) ∧
      (3037000499 : Int) * 3037000499 ≤ LLONG_MAX ∧
      LLONG_MAX < (3037000499 + 1) * (3037000499 + 1) ∧
      scanLoopLog 3037000500 LLONG_MAX 3037000499 1 [] [] [] =
        (candidates 1 3037000499,
          Outcome.done ((smallOf LLONG_MAX 1 3037000499, largeOf LLONG_MAX 1 3037000499),
            3037000500)) ∧
      (candidates 1 3037000499).length = 3037000499 := by
  refine ⟨?_, by decide, by decide, ?_, candidates_length _ _⟩
  · intro fuel
    split_ifs with h
    · have := naiveLoopLog_max_timeout fuel 1 [] [] (le_refl 1)
        (by unfold LLONG_MAX; push_cast; omega)
      simpa [naiveDivisorsLog] using this
    · exact naiveDivisorsLog_max (by omega)
  · have := (@logged_run 9223372036854775807 3037000499 (by norm_num) (by norm_num)
      (by norm_num) 3037000500 (by norm_num)).1
    exact this

/-! ## Symmetry of the divisor sequence -/

/-- Reversing the specification's sequence is the same as replacing every
divisor by its complementary divisor. -/
theorem specDivisors_reverse {n : Int} (hn : 1 ≤ n) :
    (specDivisors n).reverse = (specDivisors n).map (fun d => n / d) := by
  have hmap : ((specDivisors n).map (fun d => n / d)).reverse = specDivisors n := by
    apply eq_of_pairwise_of_mem _ (specDivisors_pairwise n)
    · intro d
      rw [List.mem_reverse, List.mem_map]
      constructor
      · rintro ⟨x, hx, rfl⟩
        obtain ⟨hx1, hx2, hx3⟩ := mem_specDivisors.1 hx
        have e := mul_ediv_of_emod hx3
        have hq : 1 ≤ n / x := by
          by_contra h0
          have : x * (n / x) ≤ 0 := by nlinarith
          omega
        have hqd : (n / x) ∣ n := Dvd.intro_left _ e
        exact mem_specDivisors.2 ⟨hq, Int.le_of_dvd (by omega) hqd,
          Int.emod_eq_zero_of_dvd hqd⟩
      · intro hd
        obtain ⟨hd1, hd2, hd3⟩ := mem_specDivisors.1 hd
        have e := mul_ediv_of_emod hd3
        have hq : 1 ≤ n / d := by
          by_contra h0
          have : d * (n / d) ≤ 0 := by nlinarith
          omega
        have hqd : (n / d) ∣ n := Dvd.intro_left _ e
        refine ⟨n / d, mem_specDivisors.2 ⟨hq, Int.le_of_dvd (by omega) hqd,
          Int.emod_eq_zero_of_dvd hqd⟩, ?_⟩
        apply Int.ediv_eq_of_eq_mul_right (by omega)
        rw [mul_comm]; exact e.symm
    · rw [List.pairwise_reverse, List.pairwise_map]
      refine (specDivisors_pairwise n).imp_of_mem ?_
      intro x y hx hy hxy
      obtain ⟨hx1, _, hx3⟩ := mem_specDivisors.1 hx
      obtain ⟨_, _, hy3⟩ := mem_specDivisors.1 hy
      exact ediv_lt_ediv_of_lt hn hx1 hxy hx3 hy3
  have := congrArg List.reverse hmap
  rw [List.reverse_reverse] at this
  exact this.symm

theorem specDivisors_get_mul {n : Int} (hn : 1 ≤ n) (j : Nat)
    (hj : j < (specDivisors n).length) :
    (specDivisors n).get ⟨j, hj⟩ *
      (specDivisors n).get ⟨(specDivisors n).length - 1 - j, by omega⟩ = n := by
  have h1 : (specDivisors n)[(specDivisors n).length - 1 - j]? =
      ((specDivisors n).map (fun d => n / d))[j]? := by
    rw [← specDivisors_reverse hn, List.getElem?_reverse hj]
  rw [List.getElem?_map, List.getElem?_eq_getElem hj,
    List.getElem?_eq_getElem (show (specDivisors n).length - 1 - j < (specDivisors n).length
      by omega)] at h1
  simp only [Option.map_some', Option.some.injEq] at h1
  simp only [List.get_eq_getElem]
  rw [h1]
  have hmem : (specDivisors n)[j] ∈ specDivisors n := List.getElem_mem _
  exact mul_ediv_of_emod (mem_specDivisors.1 hmem).2.2

/-- C18: for every `long long` `n ≥ 1` the sequence `L` returned by
`optimizedDivisors(n)`, of length `m`, is symmetric under complementation:
`L[j] * L[m - 1 - j] = n` for every index `j < m`. -/
theorem optimizedDivisors_symmetric (n : Int) (h1 : 1 ≤ n) (h2 : n ≤ LLONG_MAX) (fuel : Nat)
    (hf : sqrtNat n.toNat < fuel) :
    ∃ l : List Int, optimizedDivisors fuel n = Outcome.done l ∧
      ∀ (j : Nat) (hj : j < l.length),
        l.get ⟨j, hj⟩ * l.get ⟨l.length - 1 - j, by omega⟩ = n :=
  ⟨specDivisors n, optimizedDivisors_eq h1 h2 hf, fun j hj => specDivisors_get_mul h1 j hj⟩

theorem optimizedDivisors_symmetric_witness :
    ∃ l : List Int, optimizedDivisors 6 28 = Outcome.done l ∧
      ∀ (j : Nat) (hj : j < l.length),
        l.get ⟨j, hj⟩ * l.get ⟨l.length - 1 - j, by omega⟩ = 28 :=
  optimizedDivisors_symmetric 28 (by decide) (by decide) 6
    (by rw [show (28 : Int).toNat = 28 from rfl, sqrtNat_28]; decide)

/-! ## The indices of the reverse traversal -/

theorem descending_pairwise (j : Nat) : (descending j).Pairwise (fun a b => b < a) := by
  induction j with
  | zero => simp [descending]
  | succ j ih =>
    rw [descending_succ, List.pairwise_cons]
    exact ⟨fun x hx => (mem_descending.1 hx).2, ih⟩

theorem descending_length (j : Nat) : (descending j).length = j := by
  simp [descending]

theorem descending_nodup (j : Nat) : (descending j).Nodup :=
  (descending_pairwise j).imp (fun h => (ne_of_lt h).symm)

/-- C19: for every `long long` `n ≥ 1`, every index `i` used in `largeDivisors[i]`
by the reverse traversal of `optimizedDivisors` satisfies `0 ≤ i < size()`; the
indices used are `size() - 1, ..., 1, 0`, each index of `largeDivisors` exactly
once, in descending order; and when `largeDivisors` is empty, as for `n = 1`,
the initial value `size() - 1` converted to `int` is `-1`, no index is used and
nothing is appended. -/
theorem reverse_traversal_indices (n : Int) (h1 : 1 ≤ n) (h2 : n ≤ LLONG_MAX) (fuel : Nat)
    (hf : sqrtNat n.toNat < fuel) :
    ∃ (sqrtN : Int) (sm lg rlog out : List Int), sqrtBound n = some sqrtN ∧
      scanLoop fuel n sqrtN 1 [] [] = Outcome.done (sm, lg) ∧
      reverseLoopLog fuel lg (startIndex lg.length) sm [] = (rlog, Outcome.done (out, -1)) ∧
      optimizedDivisors fuel n = Outcome.done out ∧
      (∀ i ∈ rlog, 0 ≤ i ∧ i < (lg.length : Int)) ∧
      (∀ k : Nat, k < lg.length → rlog.count (k : Int) = 1) ∧
      rlog.length = lg.length ∧
      rlog.Pairwise (fun a b => b < a) ∧
      rlog = descending lg.length ∧
      (lg = [] → startIndex lg.length = -1 ∧ rlog = [] ∧ out = sm) ∧
      (n = 1 → lg = []) ∧
      sizeToInt (sizeMinusOne 0) = -1 := by
  obtain ⟨p1, p2, p3, _⟩ := optimizedDivisors_parts h1 h2 hf
  obtain ⟨N, rfl⟩ : ∃ N : Nat, n = (N : Int) := ⟨n.toNat, by omega⟩
  have hN : 1 ≤ N := by omega
  have h63 : N < 2 ^ 63 := by unfold LLONG_MAX at h2; norm_num; omega
  simp only [Int.toNat_ofNat] at hf p1 p2 p3
  have hb := sqrtNat_le hN h63
  obtain ⟨_, _, _, q4⟩ := logged_run hN h63 hb hf
  refine ⟨_, _, _, _, _, p1, p2, q4, p3, ?_, ?_, descending_length _, descending_pairwise _,
    rfl, ?_, ?_, by decide⟩
  · intro i hi
    exact mem_descending.1 hi
  · intro k hk
    apply List.count_eq_one_of_mem (descending_nodup _)
    exact mem_descending.2 ⟨by omega, by omega⟩
  · intro hnil
    rw [hnil]
    exact ⟨by decide, rfl, by simp⟩
  · intro hn1
    have e : N = 1 := by omega
    subst e
    rw [sqrtNat_one]
    decide

theorem reverse_traversal_indices_witness :
    ∃ (sqrtN : Int) (sm lg rlog out : List Int), sqrtBound 1 = some sqrtN ∧
      scanLoop 2 1 sqrtN 1 [] [] = Outcome.done (sm, lg) ∧
      reverseLoopLog 2 lg (startIndex lg.length) sm [] = (rlog, Outcome.done (out, -1)) ∧
      optimizedDivisors 2 1 = Outcome.done out ∧
      (∀ i ∈ rlog, 0 ≤ i ∧ i < (lg.length : Int)) ∧
      (∀ k : Nat, k < lg.length → rlog.count (k : Int) = 1) ∧
      rlog.length = lg.length ∧
      rlog.Pairwise (fun a b => b < a) ∧
      rlog = descending lg.length ∧
      (lg = [] → startIndex lg.length = -1 ∧ rlog = [] ∧ out = sm) ∧
      ((1 : Int) = 1 → lg = []) ∧
      sizeToInt (sizeMinusOne 0) = -1 :=
  reverse_traversal_indices 1 (by decide) (by decide) 2
    (by rw [show (1 : Int).toNat = 1 from rfl, sqrtNat_one]; decide)

end Task3
